import Mathlib

/-!
Verification of the mget fetching engine (sina-ht/wget2 snapshot) against its
natural-language specification.  The definitions below are shallow embeddings
of the C functions in `src/mget.c` and `libwget/net.c`; each definition's doc
comment names the function it translates.  Primitives whose C source is not
part of the provided tree (blacklist.c, host.c, job.c, the IRI parser) are
modelled from the specification and marked as such.
-/

namespace Mget

/-! ## Persistence and quota: `_save_file` / `quota_modify_read` (mget.c) -/

/-- Header and body byte lengths of an HTTP response, the only response data
relevant to the quota accounting of `_save_file`. -/
structure RespLens where
  headerLen : Nat
  bodyLen : Nat
deriving DecidableEq, Repr

/-- Configuration fields read by `_save_file`. `quota = 0` means no quota is
configured (C tests `config.quota` for non-zero). -/
structure SaveConfig where
  spider : Bool
  quota : Nat
  save_headers : Bool
  output_document : Option String := none
  delete_after : Bool := false
deriving DecidableEq, Repr

/-- A byte-writing side effect performed by `_save_file`. -/
inductive WEv where
  | fileWrite (fname : String) (n : Nat)
  | stdoutWrite (n : Nat)
deriving DecidableEq, Repr

/-- Number of bytes `_save_file` accounts for a response: header plus body when
headers are saved, otherwise body only (mget.c line 1575). -/
def respSize (cfg : SaveConfig) (r : RespLens) : Nat :=
  if cfg.save_headers then r.headerLen + r.bodyLen else r.bodyLen

/-- Translation of `_save_file` (mget.c lines 1559-1689), restricted to its
observable effects: the shared quota counter and the bytes written.  The
`quota_modify_read` call (lines 307-319) adds `nbytes` to the counter under a
mutex and returns the old value; here the counter is threaded explicitly.
The file-naming details after the quota check (adjust_extension, clobber
suffixing) change only the target name, never the written byte counts, and
the open/write loop is summarized as the write events it performs. -/
def save_file_impl (cfg : SaveConfig) (quota0 : Nat) (r : RespLens) :
    Option String → Nat × List WEv
  | none => (quota0, [])
  | some f =>
    if cfg.spider then (quota0, [])
    else if f.toList.getLast? = some '/' then (quota0, [])
    -- quota_modify_read(size): counter += size, old value compared to the quota
    else if cfg.quota ≠ 0 ∧ cfg.quota ≤ quota0 then (quota0 + respSize cfg r, [])
    else if cfg.output_document = some f ∧ f = "-" then
      (quota0 + respSize cfg r,
        (if cfg.save_headers then [WEv.stdoutWrite r.headerLen] else [])
          ++ [WEv.stdoutWrite r.bodyLen])
    else if cfg.output_document = some f ∧ cfg.delete_after then
      (quota0 + respSize cfg r, [])
    else
      (quota0 + respSize cfg r,
        (if cfg.save_headers then [WEv.fileWrite f r.headerLen] else [])
          ++ [WEv.fileWrite f r.bodyLen])

/-- Byte count of one write event. -/
def wevLen : WEv → Nat
  | .fileWrite _ n => n
  | .stdoutWrite n => n

/-- Total bytes written by a list of write events. -/
def totalWritten (evs : List WEv) : Nat :=
  (evs.map wevLen).sum

/-- A run of `_save_file` calls sharing the quota counter, starting from
counter 0 (the program starts with `quota = 0`). -/
def run_save_files (cfg : SaveConfig) (rs : List (RespLens × Option String)) :
    Nat × List WEv :=
  rs.foldl
    (fun acc rf =>
      let st := save_file_impl cfg acc.1 rf.1 rf.2
      (st.1, acc.2 ++ st.2)) (0, [])

lemma totalWritten_append (a b : List WEv) :
    totalWritten (a ++ b) = totalWritten a + totalWritten b := by
  simp [totalWritten]

lemma respSize_save_file_events (cfg : SaveConfig) (q : Nat) (r : RespLens) (f? : Option String) :
    totalWritten (save_file_impl cfg q r f?).2 = 0 ∨
    totalWritten (save_file_impl cfg q r f?).2 = respSize cfg r := by
  rcases f? with _ | f
  · simp [save_file_impl, totalWritten]
  · simp only [save_file_impl]
    split
    · simp [totalWritten]
    · split
      · simp [totalWritten]
      · split
        · simp [totalWritten]
        · split
          · rcases hh : cfg.save_headers <;>
              simp [hh, totalWritten, wevLen, respSize]
          · split
            · simp [totalWritten]
            · rcases hh : cfg.save_headers <;>
                simp [hh, totalWritten, wevLen, respSize]

lemma save_file_counter (cfg : SaveConfig) (q : Nat) (r : RespLens) (f? : Option String) :
    (save_file_impl cfg q r f?).1 = q ∨
    (save_file_impl cfg q r f?).1 = q + respSize cfg r := by
  rcases f? with _ | f
  · simp [save_file_impl]
  · simp only [save_file_impl]
    split
    · simp
    · split
      · simp
      · split
        · simp
        · split
          · simp
          · split <;> simp

/-- When the quota is configured and the counter already reached it, the call
writes nothing (the abort is decided on the counter value before the
reservation, mget.c line 1575). -/
lemma save_file_no_room (cfg : SaveConfig) (q : Nat) (r : RespLens) (f? : Option String)
    (hq : cfg.quota ≠ 0) (hle : cfg.quota ≤ q) :
    (save_file_impl cfg q r f?).2 = [] := by
  rcases f? with _ | f
  · rfl
  · simp only [save_file_impl]
    split
    · rfl
    · split
      · rfl
      · rw [if_pos ⟨hq, hle⟩]

/-- If a write happens, the counter advances by the full response size (the
reservation is made in the same protected step, before any write). -/
lemma save_file_write_counter (cfg : SaveConfig) (q : Nat) (r : RespLens) (f? : Option String)
    (h : (save_file_impl cfg q r f?).2 ≠ []) :
    (save_file_impl cfg q r f?).1 = q + respSize cfg r := by
  rcases f? with _ | f
  · exact absurd rfl h
  · simp only [save_file_impl] at h ⊢
    by_cases hs : cfg.spider = true
    · rw [if_pos hs] at h; exact absurd rfl h
    · rw [if_neg hs] at h ⊢
      by_cases h1 : f.toList.getLast? = some '/'
      · rw [if_pos h1] at h; exact absurd rfl h
      · rw [if_neg h1]
        split
        · rfl
        · split
          · rfl
          · split <;> rfl

lemma run_save_files_bound_aux (cfg : SaveConfig) (S : Nat) (hq : 0 < cfg.quota) :
    ∀ (rs : List (RespLens × Option String)) (q0 : Nat) (w0 : List WEv),
      (∀ rf ∈ rs, respSize cfg rf.1 ≤ S) →
      totalWritten w0 ≤ q0 → totalWritten w0 < cfg.quota + S →
      totalWritten (rs.foldl
        (fun acc rf =>
          let st := save_file_impl cfg acc.1 rf.1 rf.2
          (st.1, acc.2 ++ st.2)) (q0, w0)).2 < cfg.quota + S ∧
      totalWritten (rs.foldl
        (fun acc rf =>
          let st := save_file_impl cfg acc.1 rf.1 rf.2
          (st.1, acc.2 ++ st.2)) (q0, w0)).2 ≤ (rs.foldl
        (fun acc rf =>
          let st := save_file_impl cfg acc.1 rf.1 rf.2
          (st.1, acc.2 ++ st.2)) (q0, w0)).1 := by
  intro rs
  induction rs with
  | nil => intro q0 w0 _ h1 h2; exact ⟨h2, h1⟩
  | cons rf rest ih =>
    intro q0 w0 hS h1 h2
    have hSrf : respSize cfg rf.1 ≤ S := hS rf (List.mem_cons_self rf rest)
    have hSrest : ∀ x ∈ rest, respSize cfg x.1 ≤ S := fun x hx => hS x (List.mem_cons_of_mem rf hx)
    have hred : (rf :: rest).foldl
          (fun (acc : Nat × List WEv) (rf : RespLens × Option String) =>
            let st := save_file_impl cfg acc.1 rf.1 rf.2
            (st.1, acc.2 ++ st.2)) (q0, w0)
        = rest.foldl
          (fun (acc : Nat × List WEv) (rf : RespLens × Option String) =>
            let st := save_file_impl cfg acc.1 rf.1 rf.2
            (st.1, acc.2 ++ st.2))
          ((save_file_impl cfg q0 rf.1 rf.2).1, w0 ++ (save_file_impl cfg q0 rf.1 rf.2).2) := rfl
    rw [hred]
    have hta : totalWritten (w0 ++ (save_file_impl cfg q0 rf.1 rf.2).2)
        = totalWritten w0 + totalWritten (save_file_impl cfg q0 rf.1 rf.2).2 :=
      totalWritten_append _ _
    by_cases hemp : (save_file_impl cfg q0 rf.1 rf.2).2 = []
    · have he0 : totalWritten (save_file_impl cfg q0 rf.1 rf.2).2 = 0 := by
        rw [hemp]; rfl
      have hcnt := save_file_counter cfg q0 rf.1 rf.2
      exact ih _ _ hSrest (by omega) (by omega)
    · have hroom : q0 < cfg.quota := by
        by_contra hc
        exact hemp (save_file_no_room cfg q0 rf.1 rf.2 (by omega) (by omega))
      have hcnt : (save_file_impl cfg q0 rf.1 rf.2).1 = q0 + respSize cfg rf.1 :=
        save_file_write_counter cfg q0 rf.1 rf.2 hemp
      have hsz : totalWritten (save_file_impl cfg q0 rf.1 rf.2).2 ≤ respSize cfg rf.1 := by
        rcases respSize_save_file_events cfg q0 rf.1 rf.2 with h | h <;> omega
      exact ih _ _ hSrest (by omega) (by omega)

/-- Claim C1, corrected.  Each `_save_file` call reserves the response's byte
length (header plus body when headers are saved, otherwise body only) on the
shared quota counter before writing, but it aborts when the running total
BEFORE that reservation has already reached the quota (mget.c line 1575
compares the old counter value returned by `quota_modify_read`).
Consequently every write starts while the previously reserved total is below
the quota, and the cumulative bytes written stay below quota plus the size of
one response; they can exceed the quota itself (see the counterexample). -/
theorem spec_c1 (cfg : SaveConfig) (rs : List (RespLens × Option String)) (S : Nat)
    (hq : 0 < cfg.quota) (hS : ∀ rf ∈ rs, respSize cfg rf.1 ≤ S) :
    totalWritten (run_save_files cfg rs).2 < cfg.quota + S ∧
    (∀ q r f?, cfg.quota ≤ q → (save_file_impl cfg q r f?).2 = []) ∧
    (∀ q r f?, (save_file_impl cfg q r f?).2 ≠ [] →
      (save_file_impl cfg q r f?).1 = q + respSize cfg r ∧ q < cfg.quota) := by
  refine ⟨?_, ?_, ?_⟩
  · have h := run_save_files_bound_aux cfg S hq rs 0 [] hS (by simp [totalWritten])
      (by simp [totalWritten]; omega)
    exact h.1
  · intro q r f? hle
    exact save_file_no_room cfg q r f? (by omega) hle
  · intro q r f? hne
    refine ⟨save_file_write_counter cfg q r f? hne, ?_⟩
    by_contra hc
    exact hne (save_file_no_room cfg q r f? (by omega) (by omega))

theorem spec_c1_witness :
    totalWritten (run_save_files ⟨false, 1000, false, none, false⟩
      [(⟨0, 700⟩, some "a"), (⟨0, 700⟩, some "b")]).2 < 1000 + 700 :=
  (spec_c1 ⟨false, 1000, false, none, false⟩
    [(⟨0, 700⟩, some "a"), (⟨0, 700⟩, some "b")] 700 (by decide) (by decide)).1

/-- Claim C1, counterexample to the claim as stated.  With a configured quota
of 1000 bytes and two 700-byte bodies persisted to distinct files, both
writes happen (the second one starts with a running total of 700, which is
still below the quota even though 700 + 700 exceeds it), so the cumulative
bytes written are 1400 > 1000.  The claimed abort on "running total after the
reservation exceeds the quota" does not happen. -/
theorem spec_c1_cex :
    totalWritten (run_save_files ⟨false, 1000, false, none, false⟩
      [(⟨0, 700⟩, some "a"), (⟨0, 700⟩, some "b")]).2 = 1400 ∧ 1000 < 1400 := by
  constructor
  · rfl
  · decide

/-- Claim C10, confirmed.  `_save_file` returns before touching the quota
counter or the filesystem when spider mode is on, when the target filename is
NULL, or when the target filename ends in '/' (mget.c lines 1559-1576: these
checks precede the `quota_modify_read` call). -/
theorem spec_c10 (cfg : SaveConfig) (q : Nat) (r : RespLens) (fname : Option String)
    (h : cfg.spider = true ∨ fname = none ∨
      (∃ f, fname = some f ∧ f.toList.getLast? = some '/')) :
    save_file_impl cfg q r fname = (q, []) := by
  rcases fname with _ | f
  · rfl
  · rcases h with h | h | ⟨f', hf, hsl⟩
    · simp [save_file_impl, h]
    · exact absurd h (by simp)
    · have hf' : f' = f := by injection hf with h1; exact h1.symm
      subst hf'
      simp only [save_file_impl]
      by_cases hs : cfg.spider = true
      · rw [if_pos hs]
      · rw [if_neg hs, if_pos hsl]

theorem spec_c10_witness :
    save_file_impl ⟨false, 1000, true, none, false⟩ 5 ⟨3, 4⟩ (some "dir/") = (5, []) :=
  spec_c10 ⟨false, 1000, true, none, false⟩ 5 ⟨3, 4⟩ (some "dir/")
    (Or.inr (Or.inr ⟨"dir/", rfl, by decide⟩))

/-! ## Sitemap location scoping: `sitemap_parse_xml` / `sitemap_parse_text` (mget.c) -/

/-- Boolean model of `strncasecmp(a, b, n) == 0`: the first `n` characters of
`a` and `b` agree ignoring ASCII case (comparison stops at the end of the
shorter string, like strncasecmp stops at NUL; URLs here are ASCII so
character counts coincide with byte counts). -/
def strncasecmp_eq (a b : String) (n : Nat) : Bool :=
  ((a.toList.take n).map Char.toLower) == ((b.toList.take n).map Char.toLower)

/-- Index just past the last '/' of a character list, or `none` when there is
no '/' (models `strrchr(uri, '/')`). -/
def last_slash_idx (l : List Char) : Option Nat :=
  (l.enum.foldl (fun acc p => if p.2 = '/' then some p.1 else acc) none)

/-- Directory-part length of the sitemap base URI (mget.c lines 1320-1325 and
1409-1414): position of the last '/' plus one, or the whole string length
when the URI has no '/'. -/
def sitemap_baselen (baseUri : String) : Nat :=
  match last_slash_idx baseUri.toList with
  | some i => i + 1
  | none => baseUri.length

/-- Translation of the skip decision applied to each URL listed in a sitemap
(mget.c line 1334, identical at line 1426): with a base URI present, the URL
is skipped as "not matching sitemap location" when `baselen` is non-zero and
either the URL is no longer than `baselen` or its first `baselen` characters
equal those of the base URI ignoring case (the code negates `strncasecmp`,
so a MATCHING prefix causes the skip). -/
def sitemap_url_skipped (base : Option String) (url : String) : Bool :=
  match base with
  | none => false
  | some b =>
    (sitemap_baselen b != 0) &&
      (decide (url.length ≤ sitemap_baselen b) || strncasecmp_eq url b (sitemap_baselen b))

/-- Claim C4, code bug.  For the sitemap at
"http://example.com/catalog/sitemap.xml" (directory prefix
"http://example.com/catalog/", length 27), the listed URL
"http://example.com/catalog/page1.html" starts with the prefix and is longer
than it, so per the claim (and the comment right above the code) it must be
admitted - but the code skips it; conversely
"http://other.example/elsewhere.html" does not start with the prefix yet the
code admits it.  The `!strncasecmp` at mget.c line 1334 (and line 1426)
negates the intended condition. -/
theorem spec_c4_bug :
    sitemap_url_skipped (some "http://example.com/catalog/sitemap.xml")
      "http://example.com/catalog/page1.html" = true ∧
    sitemap_url_skipped (some "http://example.com/catalog/sitemap.xml")
      "http://other.example/elsewhere.html" = false ∧
    sitemap_baselen "http://example.com/catalog/sitemap.xml" = 27 ∧
    strncasecmp_eq "http://example.com/catalog/page1.html"
      "http://example.com/catalog/sitemap.xml" 27 = true ∧
    27 < "http://example.com/catalog/page1.html".length ∧
    strncasecmp_eq "http://other.example/elsewhere.html"
      "http://example.com/catalog/sitemap.xml" 27 = false := by
  refine ⟨by decide, by decide, by decide, by decide, by decide, by decide⟩

/-! ## HTTP authentication challenge selection: `http_get` (mget.c lines 1894-1915) -/

/-- An authentication challenge as far as the selection loop reads it. -/
structure HttpChallenge where
  auth_scheme : String
deriving DecidableEq, Repr

/-- Boolean model of `strcasecmp(a, b) != 0`: the strings differ ignoring
ASCII case. -/
def strcasecmp_ne (a b : String) : Bool :=
  (a.toList.map Char.toLower) != (b.toList.map Char.toLower)

/-- Translation of the challenge-selection loop in `http_get` (mget.c lines
1900-1911), accumulator `selected` being `selected_challenge`:
a challenge whose scheme differs from "digest" is selected immediately
(`break`); one whose scheme is "digest" (and hence differs from "basic")
becomes the tentative selection when none is set yet; in all other cases the
loop continues. -/
def select_challenge : List HttpChallenge → Option HttpChallenge → Option HttpChallenge
  | [], selected => selected
  | c :: cs, selected =>
    if strcasecmp_ne c.auth_scheme "digest" then some c
    else if strcasecmp_ne c.auth_scheme "basic" then
      select_challenge cs (if selected.isNone then some c else selected)
    else select_challenge cs selected

/-- Claim C6, code bug.  When the server's challenge list contains both a
Digest and a Basic challenge (in either order), the selection loop picks the
Basic one: the `strcasecmp(...)` tests at mget.c lines 1903 and 1907 are used
without comparing to 0 in the intended direction, so the first NON-digest
challenge wins, contradicting the comment "Prefer 'Digest' over 'Basic'"
directly above the loop. -/
theorem spec_c6_bug :
    select_challenge [⟨"Digest"⟩, ⟨"Basic"⟩] none = some ⟨"Basic"⟩ ∧
    select_challenge [⟨"Basic"⟩, ⟨"Digest"⟩] none = some ⟨"Basic"⟩ ∧
    select_challenge [⟨"Digest"⟩] none = some ⟨"Digest"⟩ := by
  refine ⟨rfl, rfl, rfl⟩

/-! ## Preferred-family address sorting: `_wget_sort_preferred` and its
call site in `wget_tcp_resolve` (net.c) -/

/-- One entry of the addrinfo list, reduced to the field the sorting reads;
`tag` distinguishes addresses beyond their family. -/
structure AddrInfo where
  family : Nat
  tag : Nat := 0
deriving DecidableEq, Repr

/-- Address family constant AF_UNSPEC (0 on POSIX systems). -/
def AF_UNSPEC : Nat := 0

/-- Translation of `_wget_sort_preferred` (net.c lines 197-231): one pass over
the input list appends each node at the tail of either the preferred or the
unpreferred chain according to its family; the result is the preferred chain
followed by the unpreferred chain (the final merge at lines 224-230). -/
def wget_sort_preferred_go (preferred_family : Nat) :
    List AddrInfo → List AddrInfo → List AddrInfo → List AddrInfo
  | [], pref, unpref => pref ++ unpref
  | ai :: rest, pref, unpref =>
    if ai.family = preferred_family then
      wget_sort_preferred_go preferred_family rest (pref ++ [ai]) unpref
    else
      wget_sort_preferred_go preferred_family rest pref (unpref ++ [ai])

def wget_sort_preferred (l : List AddrInfo) (preferred_family : Nat) : List AddrInfo :=
  wget_sort_preferred_go preferred_family l [] []

/-- The call-site guard in `wget_tcp_resolve` (net.c lines 386-387): the
reordering runs only when the configured family is AF_UNSPEC and a preferred
family is set; otherwise the resolved list is passed through unchanged. -/
def resolve_sort (family preferred_family : Nat) (l : List AddrInfo) : List AddrInfo :=
  if family = AF_UNSPEC ∧ preferred_family ≠ AF_UNSPEC then
    wget_sort_preferred l preferred_family
  else l

lemma wget_sort_preferred_go_eq (pf : Nat) :
    ∀ (rest pref unpref : List AddrInfo),
      wget_sort_preferred_go pf rest pref unpref =
        (pref ++ rest.filter (fun ai => decide (ai.family = pf)))
          ++ (unpref ++ rest.filter (fun ai => !decide (ai.family = pf))) := by
  intro rest
  induction rest with
  | nil => intro pref unpref; simp [wget_sort_preferred_go]
  | cons ai rest ih =>
    intro pref unpref
    by_cases h : ai.family = pf
    · simp [wget_sort_preferred_go, h, ih]
    · simp [wget_sort_preferred_go, h, ih]

/-- Claim C9, confirmed.  When the address family is AF_UNSPEC and a
preferred family is set, `wget_tcp_resolve` reorders the resolved list into
the preferred-family addresses followed by the others, each group keeping the
input's relative order (the result equals the two stable filters
concatenated, and is a permutation of the input); with a fixed family or no
preference the list is returned unchanged. -/
theorem spec_c9 (family pf : Nat) (l : List AddrInfo) :
    (family = AF_UNSPEC ∧ pf ≠ AF_UNSPEC →
      resolve_sort family pf l =
        l.filter (fun ai => decide (ai.family = pf))
          ++ l.filter (fun ai => !decide (ai.family = pf)) ∧
      (resolve_sort family pf l).Perm l) ∧
    (¬(family = AF_UNSPEC ∧ pf ≠ AF_UNSPEC) → resolve_sort family pf l = l) := by
  constructor
  · intro h
    have he : resolve_sort family pf l =
        l.filter (fun ai => decide (ai.family = pf))
          ++ l.filter (fun ai => !decide (ai.family = pf)) := by
      unfold resolve_sort wget_sort_preferred
      rw [if_pos h, wget_sort_preferred_go_eq]
      simp
    exact ⟨he, by rw [he]; exact List.filter_append_perm _ l⟩
  · intro h
    unfold resolve_sort
    rw [if_neg h]

theorem spec_c9_witness :
    resolve_sort 0 10 [⟨2, 0⟩, ⟨10, 1⟩, ⟨2, 2⟩, ⟨10, 3⟩] =
      List.filter (fun ai => decide (ai.family = 10)) [⟨2, 0⟩, ⟨10, 1⟩, ⟨2, 2⟩, ⟨10, 3⟩]
        ++ List.filter (fun ai => !decide (ai.family = 10)) [⟨2, 0⟩, ⟨10, 1⟩, ⟨2, 2⟩, ⟨10, 3⟩] :=
  ((spec_c9 0 10 [⟨2, 0⟩, ⟨10, 1⟩, ⟨2, 2⟩, ⟨10, 3⟩]).1 ⟨rfl, by decide⟩).1

/-! ## Metalink part download: `download_part` (mget.c lines 1703-1785) -/

/-- A metalink part as `download_part` reads and writes it. -/
structure PART where
  id : Nat
  done : Bool
  inuse : Bool
deriving DecidableEq, Repr

/-- Events of the completion phase of `download_part`, recording the lock
discipline around the all-parts-done scan. -/
inductive DEv where
  | lockQ
  | unlockQ
  | checkPart (i : Nat) (d : Bool)
  | validate (ok : Bool)
  | removeJob
  | resetInuse
deriving DecidableEq, Repr

/-- Mirror-try loop of `download_part` (mget.c lines 1708-1753).  `rem` is the
number of loop iterations left (`mirror count - tries`), `idx` is
`mirror_index`, `tries` the attempt counter; `succ t` abstracts whether the
t-th `http_get` attempt succeeded end to end (code 200/206, full body,
successful pwrite at the part's position, lines 1722-1749).  Returns the
mirror indices tried in order and the final `part->done`. -/
def download_part_loop_go (succ : Nat → Bool) (m : Nat) :
    Nat → Nat → Nat → List Nat × Bool
  | 0, _, _ => ([], false)
  | rem + 1, idx, tries =>
    if succ tries then ([idx], true)
    else
      let r := download_part_loop_go succ m rem ((idx + 1) % m) (tries + 1)
      (idx :: r.1, r.2)

/-- The loop with its initialization (line 1708): the first mirror index is
`downloader->id % mirror count`, and the loop runs while `tries < mirror
count` and the part is not done. -/
def download_part_loop (wid m : Nat) (succ : Nat → Bool) (done0 : Bool) : List Nat × Bool :=
  if done0 then ([], true)
  else download_part_loop_go succ m m (wid % m) 0

/-- All-parts-done scan of `download_part` (mget.c lines 1760-1766), with the
early break at the first not-done part; returns the checks performed and the
final `all_done`. -/
def scan_parts : List PART → Nat → List DEv × Bool
  | [], _ => ([], true)
  | p :: ps, i =>
    if p.done then
      let r := scan_parts ps (i + 1)
      (DEv.checkPart i true :: r.1, r.2)
    else ([DEv.checkPart i false], false)

structure DownloadPartResult where
  tried : List Nat
  parts : List PART
  events : List DEv
  removed : Bool

/-- The part at index `pidx` of the job's part list (`downloader->part`). -/
def part_at (parts : List PART) (pidx : Nat) : PART :=
  parts.getD pidx ⟨0, false, true⟩

/-- Translation of `download_part` (mget.c lines 1703-1785).  `parts` is
`job->parts` with the current part at index `pidx`; `validateOk` abstracts
the result of `job_validate_file` (job.c is not part of the tree).  When the
part is done after the loop, the all-parts scan runs between taking and
releasing the downloader mutex (lines 1759-1767); only if it reports all done
does `job_validate_file` run, and only on success is the job removed
(`queue_del`, line 1776).  When the part is still not done its `inuse` flag
is reset (line 1783). -/
def download_part (wid m : Nat) (succ : Nat → Bool) (parts : List PART) (pidx : Nat)
    (validateOk : Bool) : DownloadPartResult :=
  let p0 := part_at parts pidx
  let lr := download_part_loop wid m succ p0.done
  if lr.2 then
    let parts1 := parts.set pidx { p0 with done := true }
    let sc := scan_parts parts1 0
    if sc.2 then
      if validateOk then
        ⟨lr.1, parts1, DEv.lockQ :: sc.1 ++ [DEv.unlockQ, DEv.validate true, DEv.removeJob], true⟩
      else
        ⟨lr.1, parts1, DEv.lockQ :: sc.1 ++ [DEv.unlockQ, DEv.validate false], false⟩
    else
      ⟨lr.1, parts1, DEv.lockQ :: sc.1 ++ [DEv.unlockQ], false⟩
  else
    ⟨lr.1, parts.set pidx { p0 with done := false, inuse := false }, [DEv.resetInuse], false⟩

lemma scan_parts_all (l : List PART) : ∀ i, (scan_parts l i).2 = l.all (fun p => p.done) := by
  induction l with
  | nil => intro i; rfl
  | cons p ps ih =>
    intro i
    by_cases h : p.done <;> simp [scan_parts, h, ih]

lemma scan_parts_checks (l : List PART) : ∀ i, ∀ e ∈ (scan_parts l i).1, ∃ j d, e = DEv.checkPart j d := by
  induction l with
  | nil => intro i e he; simp [scan_parts] at he
  | cons p ps ih =>
    intro i e he
    by_cases h : p.done
    · simp [scan_parts, h] at he
      rcases he with he | he
      · exact ⟨i, true, he⟩
      · exact ih (i + 1) e he
    · simp [scan_parts, h] at he
      exact ⟨i, false, he⟩

lemma getD_set_self (l : List PART) (i : Nat) (a d : PART) (h : i < l.length) :
    (l.set i a).getD i d = a := by
  induction l generalizing i with
  | nil => simp at h
  | cons x xs ih =>
    rcases i with _ | i
    · rfl
    · have h' : i < xs.length := by simpa using h
      simpa using ih i h'

lemma mem_set_self (l : List PART) (i : Nat) (a : PART) (h : i < l.length) :
    a ∈ l.set i a := by
  induction l generalizing i with
  | nil => simp at h
  | cons x xs ih =>
    rcases i with _ | i
    · exact List.mem_cons_self _ _
    · have h' : i < xs.length := by simpa using h
      exact List.mem_cons_of_mem _ (ih i h')

lemma download_part_loop_go_spec (succ : Nat → Bool) (m : Nat) :
    ∀ (rem idx tries : Nat), idx < m →
      (download_part_loop_go succ m rem idx tries).1 =
        (List.range (download_part_loop_go succ m rem idx tries).1.length).map
          (fun t => (idx + t) % m) ∧
      (download_part_loop_go succ m rem idx tries).1.length ≤ rem ∧
      ((download_part_loop_go succ m rem idx tries).2 = false →
        (download_part_loop_go succ m rem idx tries).1.length = rem ∧
        ∀ t, t < rem → succ (tries + t) = false) ∧
      ((download_part_loop_go succ m rem idx tries).2 = true →
        1 ≤ (download_part_loop_go succ m rem idx tries).1.length ∧
        succ (tries + ((download_part_loop_go succ m rem idx tries).1.length - 1)) = true ∧
        ∀ t, t + 1 < (download_part_loop_go succ m rem idx tries).1.length →
          succ (tries + t) = false) := by
  intro rem
  induction rem with
  | zero =>
    intro idx tries hidx
    refine ⟨by simp [download_part_loop_go], by simp [download_part_loop_go], ?_, ?_⟩
    · intro _
      exact ⟨by simp [download_part_loop_go], fun t ht => absurd ht (Nat.not_lt_zero t)⟩
    · intro h
      simp [download_part_loop_go] at h
  | succ rem ih =>
    intro idx tries hidx
    have hm : 0 < m := Nat.lt_of_le_of_lt (Nat.zero_le idx) hidx
    by_cases hs : succ tries = true
    · have hg : download_part_loop_go succ m (rem + 1) idx tries = ([idx], true) := by
        simp [download_part_loop_go, hs]
      rw [hg]
      refine ⟨by simp [List.range_succ, Nat.mod_eq_of_lt hidx], by simp, ?_, ?_⟩
      · intro h; simp at h
      · intro _
        refine ⟨by simp, by simpa using hs, ?_⟩
        intro t ht
        simp at ht
    · have hs' : succ tries = false := by revert hs; cases succ tries <;> simp
      obtain ⟨h1, h2, h3, h4⟩ := ih ((idx + 1) % m) (tries + 1) (Nat.mod_lt _ hm)
      have hg : download_part_loop_go succ m (rem + 1) idx tries =
          (idx :: (download_part_loop_go succ m rem ((idx + 1) % m) (tries + 1)).1,
           (download_part_loop_go succ m rem ((idx + 1) % m) (tries + 1)).2) := by
        simp [download_part_loop_go, hs]
      rw [hg]
      have hstep : ∀ t, ((idx + 1) % m + t) % m = (idx + (t + 1)) % m := by
        intro t
        rw [Nat.mod_add_mod]
        congr 1
        omega
      refine ⟨?_, ?_, ?_, ?_⟩
      · simp only [List.length_cons, List.range_succ_eq_map, List.map_cons, List.map_map]
        congr 1
        · simp [Nat.mod_eq_of_lt hidx]
        · refine h1.trans ?_
          apply List.map_congr_left
          intro t _
          simp only [Function.comp_apply]
          exact hstep t
      · simpa using Nat.succ_le_succ h2
      · intro h
        simp only at h
        obtain ⟨hl, hf⟩ := h3 h
        refine ⟨by simp [hl], ?_⟩
        intro t ht
        rcases t with _ | t'
        · simpa using hs'
        · have : tries + (t' + 1) = tries + 1 + t' := by omega
          rw [this]
          exact hf t' (by omega)
      · intro h
        simp only at h
        obtain ⟨hone, hsucc, hprev⟩ := h4 h
        refine ⟨by simp, ?_, ?_⟩
        · have harith : tries + (((idx ::
              (download_part_loop_go succ m rem ((idx + 1) % m) (tries + 1)).1).length) - 1)
              = tries + 1 +
                ((download_part_loop_go succ m rem ((idx + 1) % m) (tries + 1)).1.length - 1) := by
            simp only [List.length_cons]
            omega
          rw [harith]
          exact hsucc
        · intro t ht
          rcases t with _ | t'
          · simpa using hs'
          · have : tries + (t' + 1) = tries + 1 + t' := by omega
            rw [this]
            apply hprev
            simp only [List.length_cons] at ht
            omega

lemma download_part_loop_spec (wid m : Nat) (succ : Nat → Bool) (hm : 0 < m) :
    (download_part_loop wid m succ false).1 =
      (List.range (download_part_loop wid m succ false).1.length).map
        (fun t => (wid + t) % m) ∧
    (download_part_loop wid m succ false).1.length ≤ m ∧
    ((download_part_loop wid m succ false).2 = false →
      (download_part_loop wid m succ false).1.length = m ∧ ∀ t, t < m → succ t = false) ∧
    ((download_part_loop wid m succ false).2 = true →
      1 ≤ (download_part_loop wid m succ false).1.length ∧
      succ ((download_part_loop wid m succ false).1.length - 1) = true ∧
      ∀ t, t + 1 < (download_part_loop wid m succ false).1.length → succ t = false) := by
  have hu : download_part_loop wid m succ false = download_part_loop_go succ m m (wid % m) 0 := by
    simp [download_part_loop]
  obtain ⟨h1, h2, h3, h4⟩ := download_part_loop_go_spec succ m m (wid % m) 0 (Nat.mod_lt _ hm)
  rw [hu]
  have hmod : ∀ t, (wid % m + t) % m = (wid + t) % m := fun t => Nat.mod_add_mod wid m t
  refine ⟨?_, h2, ?_, ?_⟩
  · refine h1.trans ?_
    apply List.map_congr_left
    intro t _
    exact hmod t
  · intro h
    obtain ⟨hl, hf⟩ := h3 h
    exact ⟨hl, fun t ht => by simpa using hf t ht⟩
  · intro h
    obtain ⟨hone, hsucc, hprev⟩ := h4 h
    exact ⟨hone, by simpa using hsucc, fun t ht => by simpa using hprev t ht⟩

/-- Claim C7, confirmed.  For a part download by worker `wid` over `m > 0`
mirrors (the part not already done), the mirror indices tried are
`(wid + t) % m` for `t = 0, 1, ...` - so the first index is `wid % m` and
each attempt advances by one modulo `m`; at most `m` attempts happen; when
every attempt fails, exactly `m` attempts happen; the loop stops at the first
success; and a part still not done afterwards has its `inuse` flag reset by
`download_part`. -/
theorem spec_c7 (wid m : Nat) (succ : Nat → Bool) (hm : 0 < m) :
    (download_part_loop wid m succ false).1 =
      (List.range (download_part_loop wid m succ false).1.length).map
        (fun t => (wid + t) % m) ∧
    (download_part_loop wid m succ false).1.length ≤ m ∧
    ((download_part_loop wid m succ false).2 = false →
      (download_part_loop wid m succ false).1.length = m ∧ ∀ t, t < m → succ t = false) ∧
    ((download_part_loop wid m succ false).2 = true →
      succ ((download_part_loop wid m succ false).1.length - 1) = true ∧
      ∀ t, t + 1 < (download_part_loop wid m succ false).1.length → succ t = false) ∧
    (∀ (parts : List PART) (pidx : Nat) (validateOk : Bool), pidx < parts.length →
      (part_at parts pidx).done = false →
      (download_part_loop wid m succ false).2 = false →
      (part_at (download_part wid m succ parts pidx validateOk).parts pidx).inuse
        = false) := by
  obtain ⟨h1, h2, h3, h4⟩ := download_part_loop_spec wid m succ hm
  refine ⟨h1, h2, h3, fun h => ⟨(h4 h).2.1, (h4 h).2.2⟩, ?_⟩
  intro parts pidx validateOk hp hdone hfail
  have hloop : download_part_loop wid m succ (part_at parts pidx).done
      = download_part_loop wid m succ false := by rw [hdone]
  simp only [download_part, hloop, hfail, Bool.false_eq_true, if_false]
  unfold part_at
  rw [getD_set_self _ _ _ _ hp]

theorem spec_c7_witness :
    (download_part_loop 3 2 (fun t => t == 1) false).1 =
      (List.range (download_part_loop 3 2 (fun t => t == 1) false).1.length).map
        (fun t => (3 + t) % 2) :=
  (spec_c7 3 2 (fun t => t == 1) (by decide)).1

/-- Claim C3, confirmed.  A metalink job is removed from the queue exactly
when the finished part is done, every part in `job->parts` has `done = true`
and `job_validate_file` succeeded; the all-parts-done scan runs between
taking and releasing the downloader mutex; and a failed checksum leaves the
job in the queue (no `removeJob` event). -/
theorem spec_c3 (wid m : Nat) (succ : Nat → Bool) (parts : List PART) (pidx : Nat)
    (validateOk : Bool) (hp : pidx < parts.length) :
    ((download_part wid m succ parts pidx validateOk).removed =
      ((download_part wid m succ parts pidx validateOk).parts.all (fun p => p.done)
        && validateOk)) ∧
    (validateOk = false →
      DEv.removeJob ∉ (download_part wid m succ parts pidx validateOk).events) ∧
    ((download_part wid m succ parts pidx validateOk).removed = true →
      ∃ checks, (download_part wid m succ parts pidx validateOk).events =
          DEv.lockQ :: checks ++ [DEv.unlockQ, DEv.validate true, DEv.removeJob] ∧
        ∀ e ∈ checks, ∃ j d, e = DEv.checkPart j d) := by
  cases hlr : (download_part_loop wid m succ (part_at parts pidx).done).2 with
  | false =>
    have hmem : ({ part_at parts pidx with done := false, inuse := false } : PART)
        ∈ parts.set pidx { part_at parts pidx with done := false, inuse := false } :=
      mem_set_self _ _ _ hp
    have hall : (parts.set pidx
        { part_at parts pidx with done := false, inuse := false }).all
          (fun p => p.done) = false := by
      cases hq : (parts.set pidx
          { part_at parts pidx with done := false, inuse := false }).all
            (fun p => p.done) with
      | false => rfl
      | true => exact absurd (List.all_eq_true.mp hq _ hmem) (by simp)
    refine ⟨?_, ?_, ?_⟩ <;> simp [download_part, hlr, hall]
  | true =>
    cases hsc : (scan_parts (parts.set pidx
        { part_at parts pidx with done := true }) 0).2 with
    | false =>
      have hall := (scan_parts_all (parts.set pidx
          { part_at parts pidx with done := true }) 0).symm.trans hsc
      refine ⟨?_, ?_, ?_⟩
      · simp [download_part, hlr, hsc, hall]
      · intro _
        simp only [download_part, hlr, hsc, if_true, Bool.false_eq_true, if_false]
        intro hmem
        rcases List.mem_cons.mp hmem with h | h
        · exact absurd h (by simp)
        · rcases List.mem_append.mp h with h | h
          · obtain ⟨j, d, hjd⟩ := scan_parts_checks _ 0 _ h
            simp at hjd
          · simp at h
      · intro h
        simp [download_part, hlr, hsc] at h
    | true =>
      have hall := (scan_parts_all (parts.set pidx
          { part_at parts pidx with done := true }) 0).symm.trans hsc
      cases hv : validateOk with
      | false =>
        refine ⟨?_, ?_, ?_⟩
        · simp [download_part, hlr, hsc, hall, hv]
        · intro _
          simp only [download_part, hlr, hsc, hv, if_true, Bool.false_eq_true, if_false]
          intro hmem
          rcases List.mem_cons.mp hmem with h | h
          · exact absurd h (by simp)
          · rcases List.mem_append.mp h with h | h
            · obtain ⟨j, d, hjd⟩ := scan_parts_checks _ 0 _ h
              simp at hjd
            · simp at h
        · intro h
          simp [download_part, hlr, hsc, hv] at h
      | true =>
        refine ⟨?_, ?_, ?_⟩
        · simp [download_part, hlr, hsc, hall, hv]
        · intro h
          simp at h
        · intro _
          refine ⟨(scan_parts (parts.set pidx
              { part_at parts pidx with done := true }) 0).1, ?_, ?_⟩
          · simp [download_part, hlr, hsc, hv]
          · exact fun e he => scan_parts_checks _ 0 e he

theorem spec_c3_witness :
    (download_part 0 1 (fun _ => true) [⟨0, false, true⟩] 0 true).removed =
      ((download_part 0 1 (fun _ => true) [⟨0, false, true⟩] 0 true).parts.all
        (fun p => p.done) && true) :=
  (spec_c3 0 1 (fun _ => true) [⟨0, false, true⟩] 0 true (by decide)).1

/-! ## DNS resolution: `wget_tcp_resolve` (net.c lines 322-418) -/

/-- Result of one `getaddrinfo` call: success, the transient EAI_AGAIN
failure, or any other (non-transient) failure. -/
inductive RR where
  | ok
  | again
  | fail
deriving DecidableEq, Repr

/-- Observable events of `wget_tcp_resolve`: DNS-cache lookups with their
outcome, taking and releasing the per-process resolve lock, platform
resolution calls with their result, sleeps, and the final cache insert. -/
inductive REv where
  | cacheGet (hit : Bool)
  | lockR
  | unlockR
  | resolveCall (t : Nat) (r : RR)
  | sleepMs (n : Nat)
  | cacheAdd
deriving DecidableEq, Repr

/-- Translation of the retry loop of `wget_tcp_resolve` (net.c lines
336-362).  `rem` is the number of loop iterations left (`max - tries`,
starting at 3); `cacheAns n` is the outcome of the n-th DNS-cache lookup
(the cache may be filled concurrently, hence an oracle rather than a fixed
map; wget_dns_cache_get is in dns.c outside this tree); `res t` is the
outcome of the t-th `getaddrinfo` call.  Each iteration with caching enabled
first consults the cache, on a miss takes the resolve lock and rechecks, then
resolves; a transient EAI_AGAIN result with iterations left releases the lock
and sleeps 100 ms before retrying; any other result ends the loop. -/
def wget_tcp_resolve_go (caching : Bool) (cacheAns : Nat → Bool) (res : Nat → RR) :
    Nat → Nat → Nat → List REv × Option RR
  | 0, _, _ => ([], some RR.again)
  | rem + 1, cIdx, rIdx =>
    if caching then
      if cacheAns cIdx then ([REv.cacheGet true], none)
      else if cacheAns (cIdx + 1) then
        ([REv.cacheGet false, REv.lockR, REv.cacheGet true, REv.unlockR], none)
      else
        if res rIdx = RR.again ∧ 0 < rem then
          let rest := wget_tcp_resolve_go caching cacheAns res rem (cIdx + 2) (rIdx + 1)
          ([REv.cacheGet false, REv.lockR, REv.cacheGet false,
            REv.resolveCall rIdx (res rIdx), REv.unlockR, REv.sleepMs 100] ++ rest.1, rest.2)
        else
          ([REv.cacheGet false, REv.lockR, REv.cacheGet false,
            REv.resolveCall rIdx (res rIdx)], some (res rIdx))
    else
      if res rIdx = RR.again ∧ 0 < rem then
        let rest := wget_tcp_resolve_go caching cacheAns res rem cIdx (rIdx + 1)
        ([REv.resolveCall rIdx (res rIdx), REv.sleepMs 100] ++ rest.1, rest.2)
      else
        ([REv.resolveCall rIdx (res rIdx)], some (res rIdx))

/-- Translation of `wget_tcp_resolve` (net.c lines 322-418): the loop runs
with `max = 3`; afterwards (lines 371-415) a cache hit was already returned
inside the loop, a failing final result releases the lock and reports
failure, and a successful one stores the list in the cache and releases the
lock.  The returned Bool is success. -/
def wget_tcp_resolve (caching : Bool) (cacheAns : Nat → Bool) (res : Nat → RR) :
    List REv × Bool :=
  match (wget_tcp_resolve_go caching cacheAns res 3 0 0).2 with
  | none => ((wget_tcp_resolve_go caching cacheAns res 3 0 0).1, true)
  | some RR.ok => ((wget_tcp_resolve_go caching cacheAns res 3 0 0).1
      ++ (if caching then [REv.cacheAdd, REv.unlockR] else []), true)
  | some RR.again => ((wget_tcp_resolve_go caching cacheAns res 3 0 0).1
      ++ (if caching then [REv.unlockR] else []), false)
  | some RR.fail => ((wget_tcp_resolve_go caching cacheAns res 3 0 0).1
      ++ (if caching then [REv.unlockR] else []), false)

/-- Number of platform-resolution calls in a trace. -/
def countResolve (tr : List REv) : Nat :=
  tr.countP (fun e => match e with | REv.resolveCall _ _ => true | _ => false)

/-- Number of sleeps in a trace. -/
def countSleep (tr : List REv) : Nat :=
  tr.countP (fun e => match e with | REv.sleepMs _ => true | _ => false)

lemma wget_tcp_resolve_go_succ (c : Bool) (ca : Nat → Bool) (r : Nat → RR)
    (rem cIdx rIdx : Nat) :
    wget_tcp_resolve_go c ca r (rem + 1) cIdx rIdx =
      if c then
        if ca cIdx then ([REv.cacheGet true], none)
        else if ca (cIdx + 1) then
          ([REv.cacheGet false, REv.lockR, REv.cacheGet true, REv.unlockR], none)
        else
          if r rIdx = RR.again ∧ 0 < rem then
            ([REv.cacheGet false, REv.lockR, REv.cacheGet false,
              REv.resolveCall rIdx (r rIdx), REv.unlockR, REv.sleepMs 100]
                ++ (wget_tcp_resolve_go c ca r rem (cIdx + 2) (rIdx + 1)).1,
              (wget_tcp_resolve_go c ca r rem (cIdx + 2) (rIdx + 1)).2)
          else
            ([REv.cacheGet false, REv.lockR, REv.cacheGet false,
              REv.resolveCall rIdx (r rIdx)], some (r rIdx))
      else
        if r rIdx = RR.again ∧ 0 < rem then
          ([REv.resolveCall rIdx (r rIdx), REv.sleepMs 100]
              ++ (wget_tcp_resolve_go c ca r rem cIdx (rIdx + 1)).1,
            (wget_tcp_resolve_go c ca r rem cIdx (rIdx + 1)).2)
        else ([REv.resolveCall rIdx (r rIdx)], some (r rIdx)) := rfl

lemma countResolve_go_le (c : Bool) (ca : Nat → Bool) (r : Nat → RR) :
    ∀ rem cIdx rIdx, countResolve (wget_tcp_resolve_go c ca r rem cIdx rIdx).1 ≤ rem := by
  intro rem
  induction rem with
  | zero => intro cIdx rIdx; simp [wget_tcp_resolve_go, countResolve]
  | succ rem ih =>
    intro cIdx rIdx
    rw [wget_tcp_resolve_go_succ]
    by_cases hc : c = true
    · by_cases h0 : ca cIdx = true
      · simp [hc, h0, countResolve]
      · by_cases h1 : ca (cIdx + 1) = true
        · simp [hc, h0, h1, countResolve]
        · by_cases hr : r rIdx = RR.again ∧ 0 < rem
          · have := ih (cIdx + 2) (rIdx + 1)
            simp only [hc, h0, h1, hr, if_true, Bool.false_eq_true, if_false,
              countResolve, List.countP_append] at *
            simp [List.countP_cons]
            omega
          · simp [hc, h0, h1, hr, countResolve, List.countP_cons]
    · by_cases hr : r rIdx = RR.again ∧ 0 < rem
      · have := ih cIdx (rIdx + 1)
        simp only [hc, Bool.false_eq_true, if_false, hr, if_true,
          countResolve, List.countP_append] at *
        simp [List.countP_cons]
        omega
      · simp [hc, hr, countResolve, List.countP_cons]

lemma wget_tcp_resolve_counts (c : Bool) (ca : Nat → Bool) (r : Nat → RR) :
    countResolve (wget_tcp_resolve c ca r).1 =
      countResolve (wget_tcp_resolve_go c ca r 3 0 0).1 ∧
    countSleep (wget_tcp_resolve c ca r).1 =
      countSleep (wget_tcp_resolve_go c ca r 3 0 0).1 := by
  have hsfx : ∀ (l sfx : List REv),
      countResolve sfx = 0 → countSleep sfx = 0 →
      countResolve (l ++ sfx) = countResolve l ∧ countSleep (l ++ sfx) = countSleep l := by
    intro l sfx h1 h2
    unfold countResolve countSleep at *
    rw [List.countP_append, List.countP_append, h1, h2]
    simp
  unfold wget_tcp_resolve
  rcases h : (wget_tcp_resolve_go c ca r 3 0 0).2 with _ | rr
  · simp [h]
  · rcases rr <;> simp only [h] <;>
      exact hsfx _ _ (by rcases c <;> rfl) (by rcases c <;> rfl)

lemma wget_tcp_resolve_trace_suffix (ca : Nat → Bool) (res : Nat → RR) :
    ∃ sfx, (wget_tcp_resolve true ca res).1 =
      (wget_tcp_resolve_go true ca res 3 0 0).1 ++ sfx := by
  unfold wget_tcp_resolve
  rcases hgo : (wget_tcp_resolve_go true ca res 3 0 0).2 with _ | rr
  · exact ⟨[], by simp [hgo]⟩
  · rcases rr
    · exact ⟨[REv.cacheAdd, REv.unlockR], by simp [hgo]⟩
    · exact ⟨[REv.unlockR], by simp [hgo]⟩
    · exact ⟨[REv.unlockR], by simp [hgo]⟩

/-- Claim C8, corrected.  With caching enabled, `wget_tcp_resolve` consults
the DNS cache first and returns a hit without resolving; on a miss it takes
the per-process resolve lock and rechecks the cache before resolving; the
platform resolution is retried on transient (EAI_AGAIN) failure with a
100 ms sleep between attempts and stops immediately on any other result -
but the loop makes at most THREE attempts in total (`max = 3` at net.c line
336), i.e. at most two additional retries, not the three additional retries
the claim states: under persistent transient failure exactly three
resolution calls and two sleeps happen. -/
theorem spec_c8 (ca : Nat → Bool) (res : Nat → RR) :
    (ca 0 = true →
      wget_tcp_resolve true ca res = ([REv.cacheGet true], true)) ∧
    (ca 0 = false → ca 1 = true →
      wget_tcp_resolve true ca res =
        ([REv.cacheGet false, REv.lockR, REv.cacheGet true, REv.unlockR], true)) ∧
    (ca 0 = false → ca 1 = false →
      ∃ rest, (wget_tcp_resolve true ca res).1 =
        [REv.cacheGet false, REv.lockR, REv.cacheGet false,
          REv.resolveCall 0 (res 0)] ++ rest) ∧
    countResolve (wget_tcp_resolve true ca res).1 ≤ 3 ∧
    ((∀ i, ca i = false) → (∀ t, res t = RR.again) →
      countResolve (wget_tcp_resolve true ca res).1 = 3 ∧
      countSleep (wget_tcp_resolve true ca res).1 = 2 ∧
      (wget_tcp_resolve true ca res).2 = false) ∧
    (ca 0 = false → ca 1 = false → res 0 ≠ RR.again →
      countResolve (wget_tcp_resolve true ca res).1 = 1) := by
  refine ⟨?_, ?_, ?_, ?_, ?_, ?_⟩
  · intro h
    have hg : wget_tcp_resolve_go true ca res 3 0 0 = ([REv.cacheGet true], none) := by
      rw [show (3 : Nat) = 2 + 1 from rfl, wget_tcp_resolve_go_succ]
      simp [h]
    simp [wget_tcp_resolve, hg]
  · intro h0 h1
    have hg : wget_tcp_resolve_go true ca res 3 0 0 =
        ([REv.cacheGet false, REv.lockR, REv.cacheGet true, REv.unlockR], none) := by
      rw [show (3 : Nat) = 2 + 1 from rfl, wget_tcp_resolve_go_succ]
      simp [h0, h1]
    simp [wget_tcp_resolve, hg]
  · intro h0 h1
    obtain ⟨sfx, hsfx⟩ := wget_tcp_resolve_trace_suffix ca res
    by_cases hr : res 0 = RR.again
    · have hg : (wget_tcp_resolve_go true ca res 3 0 0).1 =
          [REv.cacheGet false, REv.lockR, REv.cacheGet false, REv.resolveCall 0 (res 0),
            REv.unlockR, REv.sleepMs 100] ++ (wget_tcp_resolve_go true ca res 2 2 1).1 := by
        rw [show (3 : Nat) = 2 + 1 from rfl, wget_tcp_resolve_go_succ]
        simp [h0, h1, hr]
      refine ⟨[REv.unlockR, REv.sleepMs 100]
        ++ ((wget_tcp_resolve_go true ca res 2 2 1).1 ++ sfx), ?_⟩
      rw [hsfx, hg]
      simp
    · have hg : (wget_tcp_resolve_go true ca res 3 0 0).1 =
          [REv.cacheGet false, REv.lockR, REv.cacheGet false, REv.resolveCall 0 (res 0)] := by
        rw [show (3 : Nat) = 2 + 1 from rfl, wget_tcp_resolve_go_succ]
        simp [h0, h1, hr]
      exact ⟨sfx, by rw [hsfx, hg]⟩
  · rw [(wget_tcp_resolve_counts true ca res).1]
    exact countResolve_go_le true ca res 3 0 0
  · intro hca hres
    have e1 : ca = fun _ => false := funext hca
    have e2 : res = fun _ => RR.again := funext hres
    subst e1
    subst e2
    refine ⟨by decide, by decide, by decide⟩
  · intro h0 h1 hr
    have hg : (wget_tcp_resolve_go true ca res 3 0 0).1 =
        [REv.cacheGet false, REv.lockR, REv.cacheGet false, REv.resolveCall 0 (res 0)] := by
      rw [show (3 : Nat) = 2 + 1 from rfl, wget_tcp_resolve_go_succ]
      simp [h0, h1, hr]
    rw [(wget_tcp_resolve_counts true ca res).1, hg]
    simp [countResolve, List.countP_cons]

theorem spec_c8_witness :
    wget_tcp_resolve true (fun _ => true) (fun _ => RR.ok) = ([REv.cacheGet true], true) :=
  (spec_c8 (fun _ => true) (fun _ => RR.ok)).1 rfl

/-- Claim C8, counterexample to the claim as stated.  With caching enabled,
the cache always missing and the platform resolver failing transiently
(EAI_AGAIN) forever, the loop performs exactly 3 resolution calls and then
gives up; the claim's "retried up to three additional times" would allow a
fourth attempt (1 initial + 3 retries), which never happens. -/
theorem spec_c8_cex :
    countResolve (wget_tcp_resolve true (fun _ => false) (fun _ => RR.again)).1 = 3 ∧
    countResolve (wget_tcp_resolve true (fun _ => false) (fun _ => RR.again)).1 ≠ 1 + 3 := by
  refine ⟨by decide, by decide⟩

/-! ## URL admission: `add_url_to_queue` / `add_url` (mget.c) -/

inductive Scheme where
  | http
  | https
deriving DecidableEq, Repr

/-- A parsed URL, as far as the admission pipeline reads it.  The IRI parser
(libwget, outside this tree) is modelled by passing already-parsed values;
`none` stands for a parse failure.  Blacklist keying uses the canonical form
minus fragment (spec 4.1/4.2); serialization being injective on these
fields, the record itself serves as the key. -/
structure IRI where
  scheme : Scheme
  host : String
  port : Nat
  path : String
deriving DecidableEq, Repr

/-- Modelled from the spec: `mget_iri_parse_base(iri, "/robots.txt", enc)`
(mget.c lines 360 and 492) yields the host's robots.txt URL - same scheme,
host and port, path replaced. -/
def robots_iri (iri : IRI) : IRI :=
  { iri with path := "/robots.txt" }

/-- A queued Job as far as the admission pipeline writes it.  Modelled from
the spec: job.c/job.h are outside the tree; spec 3 gives the fields and
"level (recursion depth, root = 0)", so a fresh job from `queue_add` has
level 0 and redirection_level 0.  `robots` marks the job created for a
robots.txt download (the one holding a `deferred` vector). -/
structure JOB where
  iri : IRI
  level : Nat := 0
  redirection_level : Nat := 0
  sitemap : Bool := false
  robots : Bool := false
deriving DecidableEq, Repr

/-- Key of the host registry.  Modelled from the spec (4.4): `hosts_add`
"atomically inserts by (scheme, host, port)" (host.c is outside the tree). -/
structure HostKey where
  scheme : Scheme
  host : String
  port : Nat
deriving DecidableEq, Repr

def host_key (iri : IRI) : HostKey :=
  ⟨iri.scheme, iri.host, iri.port⟩

def robots_iri_of_key (k : HostKey) : IRI :=
  ⟨k.scheme, k.host, k.port, "/robots.txt"⟩

/-- One entry of the host registry, as far as the admission pipeline reads
it: whether `host->robot_job` is set (mget.c never clears it once set), the
URLs deferred on that robots job, and the parsed robots rules (disallowed
path prefixes) once robots.txt has been parsed (mget.c line 1072). -/
structure HOST where
  key : HostKey
  robot_job : Bool := true
  deferred : List IRI := []
  robots_rules : Option (List String) := none
deriving DecidableEq, Repr

/-- Configuration fields read by the admission pipeline.  `parent = true`
means ascending to parent directories is allowed (config.parent);
`max_redirect = 0` means no redirection cap is configured. -/
structure MgetConfig where
  recursive : Bool
  span_hosts : Bool
  robots : Bool
  parent : Bool
  https_only : Bool
  max_redirect : Nat
deriving DecidableEq, Repr

/-- Admission-relevant global state: the blacklist (modelled from spec 4.2:
the set of canonical URLs, only the first insertion succeeding -
blacklist.c is outside the tree), the host registry, the append-only log of
enqueued jobs (spec 4.5: the globally ordered admission ring, `queue_add`
appends - job.c is outside the tree), the no-parent anchors with their
directory lengths, and the domain scope sets (config.domains is mutated by
add_url_to_queue, so it lives in the state). -/
structure AdmissionState where
  blacklist : List IRI := []
  hosts : List HOST := []
  queue : List JOB := []
  parents : List (IRI × Nat) := []
  domains : List String := []
  exclude_domains : List String := []
deriving DecidableEq, Repr

/-- Lookup in the host registry by key (`hosts_get` / the lookup inside
`hosts_add`). -/
def hosts_find : List HOST → HostKey → Option HOST
  | [], _ => none
  | he :: hs, k => if he.key = k then some he else hosts_find hs k

/-- Append a URL to the deferred vector of the host's robots job
(`mget_vector_add_noalloc(job->deferred, iri)`). -/
def hosts_defer : List HOST → HostKey → IRI → List HOST
  | [], _, _ => []
  | he :: hs, k, u =>
    if he.key = k then { he with deferred := he.deferred ++ [u] } :: hs
    else he :: hosts_defer hs k u

/-- Store the parsed robots rules on a host (`job->host->robots = ...`,
mget.c line 1072). -/
def hosts_set_rules : List HOST → HostKey → List String → List HOST
  | [], _, _ => []
  | he :: hs, k, rules =>
    if he.key = k then { he with robots_rules := some rules } :: hs
    else he :: hosts_set_rules hs k rules

/-- Directory-part length of a path (mget.c lines 377-380): index of the
last '/' plus one, or 0 when the path has no '/'. -/
def dirlen_of (p : String) : Nat :=
  match last_slash_idx p.toList with
  | some i => i + 1
  | none => 0

/-- Domain-scope bookkeeping of `add_url_to_queue` (mget.c lines 347-353):
with recursion and no span-hosts, the seed's host joins config.domains
unless it is excluded (stringmap_put is idempotent, hence
insert-if-absent). -/
def aq_domains (cfg : MgetConfig) (s : AdmissionState) (iri : IRI) : AdmissionState :=
  if cfg.recursive && !cfg.span_hosts then
    if iri.host ∈ s.exclude_domains then s
    else if iri.host ∈ s.domains then s
    else { s with domains := iri.host :: s.domains }
  else s

/-- Robots handling of `add_url_to_queue` (mget.c lines 355-368): on a new
host a robots.txt job is enqueued with the seed deferred on it; on a known
host with a pending robots job the seed is deferred; the Bool tells whether
`job` was set (so the seed itself is not enqueued at the end). -/
def aq_robots (cfg : MgetConfig) (s : AdmissionState) (iri : IRI) :
    AdmissionState × Bool :=
  if cfg.recursive && cfg.robots then
    match hosts_find s.hosts (host_key iri) with
    | none =>
      ({ s with
          hosts := { key := host_key iri, deferred := [iri] } :: s.hosts,
          queue := s.queue ++ [{ iri := robots_iri iri, robots := true }] }, true)
    | some he =>
      if he.robot_job then
        ({ s with hosts := hosts_defer s.hosts (host_key iri) iri }, true)
      else (s, false)
  else (s, false)

/-- No-parent bookkeeping of `add_url_to_queue` (mget.c lines 370-383): the
seed joins the parents vector with its directory length. -/
def aq_parents (cfg : MgetConfig) (s : AdmissionState) (iri : IRI) : AdmissionState :=
  if cfg.recursive && !cfg.parent then
    { s with parents := s.parents ++ [(iri, dirlen_of iri.path)] }
  else s

/-- Translation of `add_url_to_queue` (mget.c lines 328-397): parse,
blacklist guard, then - under recursion - the domain, robots and parents
bookkeeping, and finally the seed is enqueued unless a robots job took it
(`if (!job) job = queue_add(iri)`; the local-filename assignment does not
affect admission and is omitted). -/
def add_url_to_queue (cfg : MgetConfig) (s : AdmissionState) (iri? : Option IRI) :
    AdmissionState :=
  match iri? with
  | none => s
  | some iri =>
    if iri ∈ s.blacklist then s
    else
      let s1 : AdmissionState := { s with blacklist := iri :: s.blacklist }
      let p := aq_robots cfg (aq_domains cfg s1 iri) iri
      let s3 := aq_parents cfg p.1 iri
      if p.2 then s3 else { s3 with queue := s3.queue ++ [{ iri := iri }] }

/-- The redirection-cap test of `add_url` (mget.c line 416): the parent job
is present and its redirection_level already reached max_redirect. -/
def redir_over (cfg : MgetConfig) (parent? : Option JOB) : Bool :=
  match parent? with
  | some j => decide (cfg.max_redirect ≤ j.redirection_level)
  | none => false

/-- Parent-directory check of `add_url` (mget.c lines 442-465): some
recorded parent has the same host and, unless its directory part is empty,
its directory prefix equals the first dirlen characters of the candidate's
path (strncmp over dirlen bytes). -/
def parent_match (s : AdmissionState) (iri : IRI) : Bool :=
  s.parents.any fun pd =>
    pd.1.host == iri.host &&
      (pd.2 == 0 || decide (pd.1.path.toList.take pd.2 = iri.path.toList.take pd.2))

/-- Host-scope rejection of `add_url` (mget.c lines 467-485): missing host,
host not in the domain set, or host explicitly excluded. -/
def span_reject (s : AdmissionState) (iri : IRI) : Bool :=
  iri.host == "" || !(s.domains.contains iri.host) || s.exclude_domains.contains iri.host

/-- Robots rules check of `add_url` (mget.c lines 504-515): the candidate's
path starts with a disallowed path (strncmp over the rule's length). -/
def robots_disallowed (he : HOST) (iri : IRI) : Bool :=
  match he.robots_rules with
  | none => false
  | some rules => rules.any fun rule =>
      decide (iri.path.toList.take rule.length = rule.toList)

/-- Outcome of the robots section of `add_url`: an early return (possibly
with the candidate deferred), or fall-through with the optional
freshly-enqueued robots job. -/
inductive RobotsStep where
  | early (s : AdmissionState)
  | go (s : AdmissionState) (rjob : Option JOB)

/-- Robots section of `add_url` (mget.c lines 487-517): a new host gets a
robots job with the candidate deferred on it; a known host with a pending
robots job defers the candidate and returns; otherwise loaded rules may
reject the candidate; else admission continues with no robots job. -/
def au_robots (cfg : MgetConfig) (s : AdmissionState) (iri : IRI) : RobotsStep :=
  if cfg.recursive && cfg.robots then
    match hosts_find s.hosts (host_key iri) with
    | none =>
      .go { s with hosts := { key := host_key iri, deferred := [iri] } :: s.hosts }
        (some { iri := robots_iri iri, robots := true })
    | some he =>
      if he.robot_job then
        .early { s with hosts := hosts_defer s.hosts (host_key iri) iri }
      else if robots_disallowed he iri then .early s
      else .go s none
  else .go s none

/-- Field updates applied to the enqueued job (mget.c lines 527-539): with a
parent, a redirection sets redirection_level to the parent's plus one and
leaves level untouched, any other discovery sets level to the parent's plus
one; the sitemap flag is set when requested (the referer and local_filename
assignments do not affect admission and are omitted). -/
def job_updates (nj : JOB) (parent? : Option JOB) (redirection sitemapFlag : Bool) : JOB :=
  let nj1 :=
    match parent? with
    | some j =>
      if redirection then { nj with redirection_level := j.redirection_level + 1 }
      else { nj with level := j.level + 1 }
    | none => nj
  if sitemapFlag then { nj1 with sitemap := true } else nj1

/-- Final enqueue of `add_url` (mget.c line 519): an already-created robots
job is used as is; otherwise `queue_add(blacklist_add(iri))` enqueues a
fresh job only when the blacklist insertion succeeded (modelled from spec
4.2: blacklist_add yields nothing on a duplicate, and queue_add of nothing
is nothing). -/
def au_finish (s : AdmissionState) (iri : IRI) (parent? : Option JOB)
    (redirection sitemapFlag : Bool) : Option JOB → AdmissionState
  | some rjob =>
    { s with queue := s.queue ++ [job_updates rjob parent? redirection sitemapFlag] }
  | none =>
    if iri ∈ s.blacklist then s
    else
      { s with
          blacklist := iri :: s.blacklist,
          queue := s.queue ++ [job_updates { iri := iri } parent? redirection sitemapFlag] }

/-- Translation of `add_url` (mget.c lines 410-545): redirection cap, parse,
https-only, no-parent scope, host scope, robots section, then the
blacklist-guarded enqueue with the field updates. -/
def add_url (cfg : MgetConfig) (s : AdmissionState) (parent? : Option JOB)
    (iri? : Option IRI) (redirection sitemapFlag : Bool) : AdmissionState :=
  if redirection && (cfg.max_redirect != 0) && redir_over cfg parent? then s
  else
    match iri? with
    | none => s
    | some iri =>
      if cfg.https_only && !(iri.scheme == Scheme.https) then s
      else if cfg.recursive && !cfg.parent && !parent_match s iri then s
      else if cfg.recursive && !cfg.span_hosts && span_reject s iri then s
      else
        match au_robots cfg s iri with
        | .early s' => s'
        | .go s' rjob? => au_finish s' iri parent? redirection sitemapFlag rjob?

/-- One admission-path operation of a run: a seed via `add_url_to_queue`
(command line, input file or input thread), a discovery or redirection via
`add_url`, or the robots.txt response handler storing parsed rules for a
host (mget.c line 1072). -/
inductive AdmissionOp where
  | seed (iri? : Option IRI)
  | discover (parent? : Option JOB) (iri? : Option IRI) (redirection sitemapFlag : Bool)
  | robotsLoaded (k : HostKey) (rules : List String)
deriving Repr

def admission_step (cfg : MgetConfig) (s : AdmissionState) : AdmissionOp → AdmissionState
  | .seed iri? => add_url_to_queue cfg s iri?
  | .discover parent? iri? redirection sitemapFlag =>
      add_url cfg s parent? iri? redirection sitemapFlag
  | .robotsLoaded k rules => { s with hosts := hosts_set_rules s.hosts k rules }

/-- A run's admission history from the initial state (empty blacklist, hosts
and queue; the domain sets seeded from the configuration). -/
def admission_run (cfg : MgetConfig) (doms excl : List String)
    (ops : List AdmissionOp) : AdmissionState :=
  ops.foldl (admission_step cfg) { domains := doms, exclude_domains := excl }

lemma hosts_find_none_keys (hs : List HOST) (k : HostKey)
    (h : hosts_find hs k = none) : ∀ he ∈ hs, he.key ≠ k := by
  induction hs with
  | nil => intro he hm; simp at hm
  | cons x xs ih =>
    intro he hm
    by_cases hx : x.key = k
    · simp [hosts_find, hx] at h
    · simp only [hosts_find, hx, if_false] at h
      rcases List.mem_cons.mp hm with rfl | hm'
      · exact hx
      · exact ih h he hm'

lemma hosts_find_mem (hs : List HOST) (k : HostKey) (he : HOST)
    (h : hosts_find hs k = some he) : he ∈ hs := by
  induction hs with
  | nil => simp [hosts_find] at h
  | cons x xs ih =>
    by_cases hx : x.key = k
    · simp [hosts_find, hx] at h
      cases h
      exact List.mem_cons_self _ _
    · simp only [hosts_find, hx, if_false] at h
      exact List.mem_cons_of_mem x (ih h)

lemma hosts_defer_keys (hs : List HOST) (k : HostKey) (u : IRI) :
    (hosts_defer hs k u).map (fun he => he.key) = hs.map (fun he => he.key) := by
  induction hs with
  | nil => rfl
  | cons x xs ih =>
    by_cases hx : x.key = k <;> simp [hosts_defer, hx, ih]

lemma hosts_defer_robot (hs : List HOST) (k : HostKey) (u : IRI)
    (h : ∀ he ∈ hs, he.robot_job = true) :
    ∀ he ∈ hosts_defer hs k u, he.robot_job = true := by
  induction hs with
  | nil => intro he hm; simp [hosts_defer] at hm
  | cons x xs ih =>
    intro he hm
    by_cases hx : x.key = k
    · simp only [hosts_defer, hx, if_true] at hm
      rcases List.mem_cons.mp hm with rfl | hm'
      · exact h x (List.mem_cons_self x xs)
      · exact h he (List.mem_cons_of_mem x hm')
    · simp only [hosts_defer, hx, if_false] at hm
      rcases List.mem_cons.mp hm with rfl | hm'
      · exact h he (List.mem_cons_self he xs)
      · exact ih (fun he2 hm2 => h he2 (List.mem_cons_of_mem x hm2)) he hm'

lemma hosts_set_rules_keys (hs : List HOST) (k : HostKey) (rules : List String) :
    (hosts_set_rules hs k rules).map (fun he => he.key) = hs.map (fun he => he.key) := by
  induction hs with
  | nil => rfl
  | cons x xs ih =>
    by_cases hx : x.key = k <;> simp [hosts_set_rules, hx, ih]

lemma hosts_set_rules_robot (hs : List HOST) (k : HostKey) (rules : List String)
    (h : ∀ he ∈ hs, he.robot_job = true) :
    ∀ he ∈ hosts_set_rules hs k rules, he.robot_job = true := by
  induction hs with
  | nil => intro he hm; simp [hosts_set_rules] at hm
  | cons x xs ih =>
    intro he hm
    by_cases hx : x.key = k
    · simp only [hosts_set_rules, hx, if_true] at hm
      rcases List.mem_cons.mp hm with rfl | hm'
      · exact h x (List.mem_cons_self x xs)
      · exact h he (List.mem_cons_of_mem x hm')
    · simp only [hosts_set_rules, hx, if_false] at hm
      rcases List.mem_cons.mp hm with rfl | hm'
      · exact h he (List.mem_cons_self he xs)
      · exact ih (fun he2 hm2 => h he2 (List.mem_cons_of_mem x hm2)) he hm'

lemma robots_iri_of_key_inj (k k' : HostKey)
    (h : robots_iri_of_key k = robots_iri_of_key k') : k = k' := by
  cases k
  cases k'
  simp [robots_iri_of_key] at h
  simp [h.1, h.2.1, h.2.2]

lemma robots_iri_key (iri : IRI) : robots_iri_of_key (host_key iri) = robots_iri iri := rfl

lemma job_updates_iri (nj : JOB) (p? : Option JOB) (r sm : Bool) :
    (job_updates nj p? r sm).iri = nj.iri := by
  cases p? <;> cases r <;> cases sm <;> simp [job_updates]

lemma aq_domains_blacklist (cfg : MgetConfig) (s : AdmissionState) (iri : IRI) :
    (aq_domains cfg s iri).blacklist = s.blacklist := by
  unfold aq_domains
  split_ifs <;> rfl

lemma aq_domains_hosts (cfg : MgetConfig) (s : AdmissionState) (iri : IRI) :
    (aq_domains cfg s iri).hosts = s.hosts := by
  unfold aq_domains
  split_ifs <;> rfl

lemma aq_domains_queue (cfg : MgetConfig) (s : AdmissionState) (iri : IRI) :
    (aq_domains cfg s iri).queue = s.queue := by
  unfold aq_domains
  split_ifs <;> rfl

lemma aq_parents_blacklist (cfg : MgetConfig) (s : AdmissionState) (iri : IRI) :
    (aq_parents cfg s iri).blacklist = s.blacklist := by
  unfold aq_parents
  split_ifs <;> rfl

lemma aq_parents_hosts (cfg : MgetConfig) (s : AdmissionState) (iri : IRI) :
    (aq_parents cfg s iri).hosts = s.hosts := by
  unfold aq_parents
  split_ifs <;> rfl

lemma aq_parents_queue (cfg : MgetConfig) (s : AdmissionState) (iri : IRI) :
    (aq_parents cfg s iri).queue = s.queue := by
  unfold aq_parents
  split_ifs <;> rfl

/-- Invariant tying the admission structures together: every host entry keeps
its robots job (mget.c never clears robot_job); the URLs of enqueued jobs
are pairwise distinct (the at-most-once property); in recursive+robots mode
host keys are unique and every enqueued job is the robots job of a
registered host; otherwise no hosts exist and every enqueued job's URL is in
the blacklist. -/
def AdmissionInv (cfg : MgetConfig) (s : AdmissionState) : Prop :=
  (∀ he ∈ s.hosts, he.robot_job = true) ∧
  (s.queue.map (fun j => j.iri)).Nodup ∧
  ((cfg.recursive && cfg.robots) = true →
    (s.hosts.map (fun he => he.key)).Nodup ∧
    ∀ j ∈ s.queue, ∃ k, k ∈ s.hosts.map (fun he => he.key) ∧ j.iri = robots_iri_of_key k) ∧
  ((cfg.recursive && cfg.robots) = false →
    s.hosts = [] ∧ ∀ j ∈ s.queue, j.iri ∈ s.blacklist)

lemma nodup_append_one {α : Type} (l : List α) (a : α) (h : l.Nodup) (ha : a ∉ l) :
    (l ++ [a]).Nodup := by
  rw [List.nodup_append]
  refine ⟨h, List.nodup_singleton a, ?_⟩
  intro x hx hxa
  simp only [List.mem_singleton] at hxa
  subst hxa
  exact ha hx

lemma aq_robots_cases (cfg : MgetConfig) (s : AdmissionState) (iri : IRI)
    (hrj : ∀ he ∈ s.hosts, he.robot_job = true) :
    ((cfg.recursive && cfg.robots) = false ∧ aq_robots cfg s iri = (s, false)) ∨
    ((cfg.recursive && cfg.robots) = true ∧ hosts_find s.hosts (host_key iri) = none ∧
      aq_robots cfg s iri =
        ({ s with hosts := ({ key := host_key iri, deferred := [iri] } : HOST) :: s.hosts, queue := s.queue ++ [{ iri := robots_iri iri, robots := true }] }, true)) ∨
    ((cfg.recursive && cfg.robots) = true ∧
      aq_robots cfg s iri =
        ({ s with hosts := hosts_defer s.hosts (host_key iri) iri }, true)) := by
  by_cases hguard : (cfg.recursive && cfg.robots) = true
  · rcases hfind : hosts_find s.hosts (host_key iri) with _ | he
    · exact Or.inr (Or.inl ⟨hguard, rfl, by simp [aq_robots, hguard, hfind]⟩)
    · have hrob : he.robot_job = true := hrj he (hosts_find_mem _ _ _ hfind)
      exact Or.inr (Or.inr ⟨hguard, by simp [aq_robots, hguard, hfind, hrob]⟩)
  · have hg : (cfg.recursive && cfg.robots) = false := by
      revert hguard
      cases (cfg.recursive && cfg.robots) <;> simp
    exact Or.inl ⟨hg, by simp [aq_robots, hg]⟩

lemma au_robots_cases (cfg : MgetConfig) (s : AdmissionState) (iri : IRI)
    (hrj : ∀ he ∈ s.hosts, he.robot_job = true) :
    ((cfg.recursive && cfg.robots) = false ∧ au_robots cfg s iri = .go s none) ∨
    ((cfg.recursive && cfg.robots) = true ∧ hosts_find s.hosts (host_key iri) = none ∧
      au_robots cfg s iri =
        .go { s with hosts := ({ key := host_key iri, deferred := [iri] } : HOST) :: s.hosts }
          (some { iri := robots_iri iri, robots := true })) ∨
    ((cfg.recursive && cfg.robots) = true ∧
      au_robots cfg s iri =
        .early { s with hosts := hosts_defer s.hosts (host_key iri) iri }) := by
  by_cases hguard : (cfg.recursive && cfg.robots) = true
  · rcases hfind : hosts_find s.hosts (host_key iri) with _ | he
    · exact Or.inr (Or.inl ⟨hguard, rfl, by simp [au_robots, hguard, hfind]⟩)
    · have hrob : he.robot_job = true := hrj he (hosts_find_mem _ _ _ hfind)
      exact Or.inr (Or.inr ⟨hguard, by simp [au_robots, hguard, hfind, hrob]⟩)
  · have hg : (cfg.recursive && cfg.robots) = false := by
      revert hguard
      cases (cfg.recursive && cfg.robots) <;> simp
    exact Or.inl ⟨hg, by simp [au_robots, hg]⟩

lemma inv_of_eq (cfg : MgetConfig) (t : AdmissionState) (bl : List IRI)
    (hs2 : List HOST) (q : List JOB)
    (hbl : t.blacklist = bl) (hhs : t.hosts = hs2) (hq : t.queue = q)
    (h1 : ∀ he ∈ hs2, he.robot_job = true)
    (h2 : (q.map (fun j => j.iri)).Nodup)
    (h3 : (cfg.recursive && cfg.robots) = true →
      (hs2.map (fun he => he.key)).Nodup ∧
      ∀ j ∈ q, ∃ k, k ∈ hs2.map (fun he => he.key) ∧ j.iri = robots_iri_of_key k)
    (h4 : (cfg.recursive && cfg.robots) = false →
      hs2 = [] ∧ ∀ j ∈ q, j.iri ∈ bl) :
    AdmissionInv cfg t := by
  unfold AdmissionInv
  rw [hbl, hhs, hq]
  exact ⟨h1, h2, h3, h4⟩

lemma add_url_to_queue_inv (cfg : MgetConfig) (s : AdmissionState) (iri? : Option IRI)
    (h : AdmissionInv cfg s) : AdmissionInv cfg (add_url_to_queue cfg s iri?) := by
  rcases iri? with _ | iri
  · exact h
  by_cases hb : iri ∈ s.blacklist
  · have he : add_url_to_queue cfg s (some iri) = s := by
      simp [add_url_to_queue, hb]
    rw [he]
    exact h
  obtain ⟨p1, p2, p3, p4⟩ := h
  have hDh : (aq_domains cfg { s with blacklist := iri :: s.blacklist } iri).hosts
      = s.hosts := by rw [aq_domains_hosts]
  have hDrj : ∀ he2 ∈ (aq_domains cfg { s with blacklist := iri :: s.blacklist } iri).hosts,
      he2.robot_job = true := by rw [hDh]; exact p1
  rcases aq_robots_cases cfg (aq_domains cfg { s with blacklist := iri :: s.blacklist } iri)
      iri hDrj with ⟨hg, hR⟩ | ⟨hg, hfind, hR⟩ | ⟨hg, hR⟩
  · -- no robots handling: the seed is enqueued
    refine inv_of_eq cfg _ (iri :: s.blacklist) s.hosts (s.queue ++ [{ iri := iri }])
      (by simp [add_url_to_queue, hb, hR, aq_parents_blacklist, aq_domains_blacklist])
      (by simp [add_url_to_queue, hb, hR, aq_parents_hosts, aq_domains_hosts])
      (by simp [add_url_to_queue, hb, hR, aq_parents_queue, aq_domains_queue])
      p1 ?_ ?_ ?_
    · rw [List.map_append]
      refine nodup_append_one _ _ p2 ?_
      intro hmem
      obtain ⟨j, hj, hij⟩ := List.mem_map.mp hmem
      have hij' : j.iri = iri := by simpa using hij
      exact hb (hij' ▸ (p4 hg).2 j hj)
    · intro hrm
      rw [hg] at hrm
      exact absurd hrm (by simp)
    · intro _
      refine ⟨(p4 hg).1, ?_⟩
      intro j hj
      rcases List.mem_append.mp hj with hj' | hj'
      · exact List.mem_cons_of_mem _ ((p4 hg).2 j hj')
      · simp only [List.mem_singleton] at hj'
        subst hj'
        exact List.mem_cons_self _ _
  · -- robots mode, new host: the robots job is enqueued
    have hfind' : hosts_find s.hosts (host_key iri) = none := by rw [← hDh]; exact hfind
    have hknot : host_key iri ∉ s.hosts.map (fun he => he.key) := by
      intro hk
      obtain ⟨he3, hhe3, hke⟩ := List.mem_map.mp hk
      exact hosts_find_none_keys s.hosts (host_key iri) hfind' he3 hhe3 hke
    refine inv_of_eq cfg _ (iri :: s.blacklist)
      (({ key := host_key iri, deferred := [iri] } : HOST) :: s.hosts)
      (s.queue ++ [{ iri := robots_iri iri, robots := true }])
      (by simp [add_url_to_queue, hb, hR, aq_parents_blacklist, aq_domains_blacklist])
      (by simp [add_url_to_queue, hb, hR, aq_parents_hosts, aq_domains_hosts, hDh])
      (by simp [add_url_to_queue, hb, hR, aq_parents_queue, aq_domains_queue])
      ?_ ?_ ?_ ?_
    · intro he2 hm
      rcases List.mem_cons.mp hm with rfl | hm'
      · rfl
      · exact p1 he2 hm'
    · rw [List.map_append]
      refine nodup_append_one _ _ p2 ?_
      intro hmem
      obtain ⟨j, hj, hij⟩ := List.mem_map.mp hmem
      obtain ⟨k, hk, hke⟩ := (p3 hg).2 j hj
      have hij' : j.iri = robots_iri iri := by simpa using hij
      have heq : robots_iri_of_key (host_key iri) = robots_iri_of_key k := by
        rw [robots_iri_key, ← hij']
        exact hke
      have hkk : host_key iri = k := robots_iri_of_key_inj _ _ heq
      exact hknot (hkk ▸ hk)
    · intro _
      constructor
      · simp only [List.map_cons]
        exact List.Nodup.cons hknot (p3 hg).1
      · intro j hj
        rcases List.mem_append.mp hj with hj' | hj'
        · obtain ⟨k, hk, hke⟩ := (p3 hg).2 j hj'
          exact ⟨k, by simp only [List.map_cons]; exact List.mem_cons_of_mem _ hk, hke⟩
        · simp only [List.mem_singleton] at hj'
          subst hj'
          exact ⟨host_key iri, by simp, rfl⟩
    · intro hnr
      rw [hg] at hnr
      exact absurd hnr (by simp)
  · -- robots mode, known host with pending robots job: the seed is deferred
    refine inv_of_eq cfg _ (iri :: s.blacklist)
      (hosts_defer (aq_domains cfg { s with blacklist := iri :: s.blacklist } iri).hosts
        (host_key iri) iri)
      s.queue
      (by simp [add_url_to_queue, hb, hR, aq_parents_blacklist, aq_domains_blacklist])
      (by simp [add_url_to_queue, hb, hR, aq_parents_hosts])
      (by simp [add_url_to_queue, hb, hR, aq_parents_queue, aq_domains_queue])
      ?_ p2 ?_ ?_
    · rw [hDh]
      exact hosts_defer_robot _ _ _ p1
    · intro hrm
      rw [hDh]
      constructor
      · rw [hosts_defer_keys]
        exact (p3 hrm).1
      · intro j hj
        obtain ⟨k, hk, hke⟩ := (p3 hrm).2 j hj
        exact ⟨k, by rw [hosts_defer_keys]; exact hk, hke⟩
    · intro hnr
      rw [hg] at hnr
      exact absurd hnr (by simp)

lemma add_url_inv (cfg : MgetConfig) (s : AdmissionState) (p? : Option JOB)
    (iri? : Option IRI) (r sm : Bool)
    (h : AdmissionInv cfg s) : AdmissionInv cfg (add_url cfg s p? iri? r sm) := by
  rcases iri? with _ | iri
  · have he : add_url cfg s p? none r sm = s := by
      unfold add_url
      split <;> rfl
    rw [he]
    exact h
  by_cases h1 : (r && (cfg.max_redirect != 0) && redir_over cfg p?) = true
  · have he : add_url cfg s p? (some iri) r sm = s := by
      unfold add_url
      rw [if_pos h1]
    rw [he]
    exact h
  rw [Bool.not_eq_true] at h1
  by_cases h2 : (cfg.https_only && !(iri.scheme == Scheme.https)) = true
  · have he : add_url cfg s p? (some iri) r sm = s := by
      simp [add_url, h1, h2]
    rw [he]
    exact h
  rw [Bool.not_eq_true] at h2
  by_cases h3 : (cfg.recursive && !cfg.parent && !parent_match s iri) = true
  · have he : add_url cfg s p? (some iri) r sm = s := by
      simp [add_url, h1, h2, h3]
    rw [he]
    exact h
  rw [Bool.not_eq_true] at h3
  by_cases h4 : (cfg.recursive && !cfg.span_hosts && span_reject s iri) = true
  · have he : add_url cfg s p? (some iri) r sm = s := by
      simp [add_url, h1, h2, h3, h4]
    rw [he]
    exact h
  rw [Bool.not_eq_true] at h4
  have hmain : add_url cfg s p? (some iri) r sm =
      (match au_robots cfg s iri with
        | RobotsStep.early s' => s'
        | RobotsStep.go s' rjob? => au_finish s' iri p? r sm rjob?) := by
    simp [add_url, h1, h2, h3, h4]
  rw [hmain]
  obtain ⟨p1, p2, p3, p4⟩ := h
  rcases au_robots_cases cfg s iri p1 with ⟨hg, hR⟩ | ⟨hg, hfind, hR⟩ | ⟨hg, hR⟩
  · -- no robots handling: blacklist-guarded enqueue
    rw [hR]
    show AdmissionInv cfg (au_finish s iri p? r sm none)
    by_cases hb : iri ∈ s.blacklist
    · have he : au_finish s iri p? r sm none = s := by simp [au_finish, hb]
      rw [he]
      exact ⟨p1, p2, p3, p4⟩
    · refine inv_of_eq cfg _ (iri :: s.blacklist) s.hosts
        (s.queue ++ [job_updates { iri := iri } p? r sm])
        (by simp only [au_finish]; rw [if_neg hb])
        (by simp only [au_finish]; rw [if_neg hb])
        (by simp only [au_finish]; rw [if_neg hb])
        p1 ?_ ?_ ?_
      · rw [List.map_append]
        refine nodup_append_one _ _ p2 ?_
        intro hmem
        obtain ⟨j, hj, hij⟩ := List.mem_map.mp hmem
        have hij' : j.iri = iri := by
          simpa [job_updates_iri] using hij
        exact hb (hij' ▸ (p4 hg).2 j hj)
      · intro hrm
        rw [hg] at hrm
        exact absurd hrm (by simp)
      · intro _
        refine ⟨(p4 hg).1, ?_⟩
        intro j hj
        rcases List.mem_append.mp hj with hj' | hj'
        · exact List.mem_cons_of_mem _ ((p4 hg).2 j hj')
        · simp only [List.mem_singleton] at hj'
          subst hj'
          rw [job_updates_iri]
          exact List.mem_cons_self _ _
  · -- robots mode, new host: the robots job is enqueued (with field updates)
    rw [hR]
    show AdmissionInv cfg (au_finish
      { s with hosts := ({ key := host_key iri, deferred := [iri] } : HOST) :: s.hosts }
      iri p? r sm (some { iri := robots_iri iri, robots := true }))
    have hknot : host_key iri ∉ s.hosts.map (fun he => he.key) := by
      intro hk
      obtain ⟨he3, hhe3, hke⟩ := List.mem_map.mp hk
      exact hosts_find_none_keys s.hosts (host_key iri) hfind he3 hhe3 hke
    refine inv_of_eq cfg _ s.blacklist
      (({ key := host_key iri, deferred := [iri] } : HOST) :: s.hosts)
      (s.queue ++ [job_updates { iri := robots_iri iri, robots := true } p? r sm])
      (by rfl) (by rfl) (by rfl)
      ?_ ?_ ?_ ?_
    · intro he2 hm
      rcases List.mem_cons.mp hm with rfl | hm'
      · rfl
      · exact p1 he2 hm'
    · rw [List.map_append]
      refine nodup_append_one _ _ p2 ?_
      intro hmem
      obtain ⟨j, hj, hij⟩ := List.mem_map.mp hmem
      have hij' : j.iri = robots_iri iri := by
        simpa [job_updates_iri] using hij
      obtain ⟨k, hk, hke⟩ := (p3 hg).2 j hj
      have heq : robots_iri_of_key (host_key iri) = robots_iri_of_key k := by
        rw [robots_iri_key, ← hij']
        exact hke
      have hkk : host_key iri = k := robots_iri_of_key_inj _ _ heq
      exact hknot (hkk ▸ hk)
    · intro _
      constructor
      · simp only [List.map_cons]
        exact List.Nodup.cons hknot (p3 hg).1
      · intro j hj
        rcases List.mem_append.mp hj with hj' | hj'
        · obtain ⟨k, hk, hke⟩ := (p3 hg).2 j hj'
          exact ⟨k, by simp only [List.map_cons]; exact List.mem_cons_of_mem _ hk, hke⟩
        · simp only [List.mem_singleton] at hj'
          subst hj'
          refine ⟨host_key iri, by simp, ?_⟩
          rw [job_updates_iri, robots_iri_key]
    · intro hnr
      rw [hg] at hnr
      exact absurd hnr (by simp)
  · -- robots mode, known host: deferred, early return
    rw [hR]
    show AdmissionInv cfg { s with hosts := hosts_defer s.hosts (host_key iri) iri }
    refine inv_of_eq cfg _ s.blacklist
      (hosts_defer s.hosts (host_key iri) iri) s.queue rfl rfl rfl
      (hosts_defer_robot _ _ _ p1) p2 ?_ ?_
    · intro hrm
      constructor
      · rw [hosts_defer_keys]
        exact (p3 hrm).1
      · intro j hj
        obtain ⟨k, hk, hke⟩ := (p3 hrm).2 j hj
        exact ⟨k, by rw [hosts_defer_keys]; exact hk, hke⟩
    · intro hnr
      rw [hg] at hnr
      exact absurd hnr (by simp)

lemma admission_step_inv (cfg : MgetConfig) (s : AdmissionState) (op : AdmissionOp)
    (h : AdmissionInv cfg s) : AdmissionInv cfg (admission_step cfg s op) := by
  cases op with
  | seed iri? => exact add_url_to_queue_inv cfg s iri? h
  | discover p? iri? r sm => exact add_url_inv cfg s p? iri? r sm h
  | robotsLoaded k rules =>
    obtain ⟨p1, p2, p3, p4⟩ := h
    show AdmissionInv cfg { s with hosts := hosts_set_rules s.hosts k rules }
    refine ⟨hosts_set_rules_robot _ _ _ p1, p2, ?_, ?_⟩
    · intro hrm
      refine ⟨by rw [hosts_set_rules_keys]; exact (p3 hrm).1, ?_⟩
      intro j hj
      obtain ⟨k', hk', he'⟩ := (p3 hrm).2 j hj
      exact ⟨k', by rw [hosts_set_rules_keys]; exact hk', he'⟩
    · intro hnr
      refine ⟨?_, (p4 hnr).2⟩
      rw [show s.hosts = [] from (p4 hnr).1]
      rfl

lemma admission_foldl_inv (cfg : MgetConfig) :
    ∀ (ops : List AdmissionOp) (s : AdmissionState),
      AdmissionInv cfg s → AdmissionInv cfg (ops.foldl (admission_step cfg) s) := by
  intro ops
  induction ops with
  | nil => intro s h; exact h
  | cons op rest ih =>
    intro s h
    exact ih _ (admission_step_inv cfg s op h)

/-- Claim C2, corrected (at-most-once part).  In every run - any
configuration, any sequence of seed additions, discoveries, redirections and
robots loads - the URLs of the enqueued jobs are pairwise distinct: no URL
is ever enqueued as a Job twice.  (The claim's other part, that the FIRST
admission of a URL always blacklists it and enqueues a Job, fails: see the
counterexample, where a URL's first admission is deferred on a pending
robots job and enqueues nothing.) -/
theorem spec_c2 (cfg : MgetConfig) (doms excl : List String) (ops : List AdmissionOp) :
    ((admission_run cfg doms excl ops).queue.map (fun j => j.iri)).Nodup := by
  have hinit : AdmissionInv cfg
      ({ domains := doms, exclude_domains := excl } : AdmissionState) := by
    refine ⟨?_, ?_, ?_, ?_⟩
    · intro he hm
      simp at hm
    · simp
    · intro _
      exact ⟨by simp, by intro j hj; simp at hj⟩
    · intro _
      exact ⟨rfl, by intro j hj; simp at hj⟩
  exact (admission_foldl_inv cfg ops _ hinit).2.1

/-- Claim C2, counterexample to the claim as stated.  With recursion and
robots enabled, seeding "http://h/a" creates host h and enqueues only its
robots.txt job; seeding "http://h/b" - the FIRST admission of that URL - adds
it to the blacklist and defers it on the pending robots job, enqueuing
nothing: the queue still holds exactly the one robots job and no job for
"http://h/b", contradicting "the first admission adds its canonical form to
the blacklist and enqueues a Job". -/
theorem spec_c2_cex :
    ((admission_run ⟨true, true, true, true, false, 0⟩ [] []
      [AdmissionOp.seed (some ⟨Scheme.http, "h", 80, "/a"⟩),
       AdmissionOp.seed (some ⟨Scheme.http, "h", 80, "/b"⟩)]).queue.length = 1) ∧
    ((⟨Scheme.http, "h", 80, "/b"⟩ : IRI) ∈
      (admission_run ⟨true, true, true, true, false, 0⟩ [] []
        [AdmissionOp.seed (some ⟨Scheme.http, "h", 80, "/a"⟩),
         AdmissionOp.seed (some ⟨Scheme.http, "h", 80, "/b"⟩)]).blacklist) ∧
    (∀ j ∈ (admission_run ⟨true, true, true, true, false, 0⟩ [] []
        [AdmissionOp.seed (some ⟨Scheme.http, "h", 80, "/a"⟩),
         AdmissionOp.seed (some ⟨Scheme.http, "h", 80, "/b"⟩)]).queue,
      j.iri ≠ (⟨Scheme.http, "h", 80, "/b"⟩ : IRI)) := by
  refine ⟨by decide, by decide, by decide⟩

lemma aq_robots_raw (cfg : MgetConfig) (s : AdmissionState) (iri : IRI) :
    (aq_robots cfg s iri = (s, false)) ∨
    (aq_robots cfg s iri =
      ({ s with hosts := ({ key := host_key iri, deferred := [iri] } : HOST) :: s.hosts, queue := s.queue ++ [{ iri := robots_iri iri, robots := true }] }, true)) ∨
    (aq_robots cfg s iri =
      ({ s with hosts := hosts_defer s.hosts (host_key iri) iri }, true)) := by
  by_cases hguard : (cfg.recursive && cfg.robots) = true
  · rcases hfind : hosts_find s.hosts (host_key iri) with _ | he
    · exact Or.inr (Or.inl (by simp [aq_robots, hguard, hfind]))
    · by_cases hrob : he.robot_job = true
      · exact Or.inr (Or.inr (by simp [aq_robots, hguard, hfind, hrob]))
      · rw [Bool.not_eq_true] at hrob
        exact Or.inl (by simp [aq_robots, hguard, hfind, hrob])
  · rw [Bool.not_eq_true] at hguard
    exact Or.inl (by simp [aq_robots, hguard])

lemma au_robots_raw (cfg : MgetConfig) (s : AdmissionState) (iri : IRI) :
    (au_robots cfg s iri = .go s none) ∨
    (au_robots cfg s iri =
      .go { s with hosts := ({ key := host_key iri, deferred := [iri] } : HOST) :: s.hosts }
        (some { iri := robots_iri iri, robots := true })) ∨
    (∃ s', au_robots cfg s iri = .early s' ∧ s'.queue = s.queue) := by
  by_cases hguard : (cfg.recursive && cfg.robots) = true
  · rcases hfind : hosts_find s.hosts (host_key iri) with _ | he
    · exact Or.inr (Or.inl (by simp [au_robots, hguard, hfind]))
    · by_cases hrob : he.robot_job = true
      · exact Or.inr (Or.inr ⟨{ s with hosts := hosts_defer s.hosts (host_key iri) iri },
          by simp [au_robots, hguard, hfind, hrob], rfl⟩)
      · rw [Bool.not_eq_true] at hrob
        by_cases hdis : robots_disallowed he iri = true
        · exact Or.inr (Or.inr ⟨s, by simp [au_robots, hguard, hfind, hrob, hdis], rfl⟩)
        · rw [Bool.not_eq_true] at hdis
          exact Or.inl (by simp [au_robots, hguard, hfind, hrob, hdis])
  · rw [Bool.not_eq_true] at hguard
    exact Or.inl (by simp [au_robots, hguard])

lemma add_url_to_queue_queue (cfg : MgetConfig) (s : AdmissionState) (iri? : Option IRI) :
    (add_url_to_queue cfg s iri?).queue = s.queue ∨
    ∃ nj : JOB, nj.level = 0 ∧ nj.redirection_level = 0 ∧
      (add_url_to_queue cfg s iri?).queue = s.queue ++ [nj] := by
  rcases iri? with _ | iri
  · left
    rfl
  by_cases hb : iri ∈ s.blacklist
  · left
    simp [add_url_to_queue, hb]
  rcases aq_robots_raw cfg (aq_domains cfg { s with blacklist := iri :: s.blacklist } iri) iri
    with hR | hR | hR
  · right
    exact ⟨{ iri := iri }, rfl, rfl,
      by simp [add_url_to_queue, hb, hR, aq_parents_queue, aq_domains_queue]⟩
  · right
    exact ⟨{ iri := robots_iri iri, robots := true }, rfl, rfl,
      by simp [add_url_to_queue, hb, hR, aq_parents_queue, aq_domains_queue]⟩
  · left
    simp [add_url_to_queue, hb, hR, aq_parents_queue, aq_domains_queue]

lemma add_url_queue (cfg : MgetConfig) (s : AdmissionState) (p? : Option JOB)
    (iri? : Option IRI) (r sm : Bool) :
    (add_url cfg s p? iri? r sm).queue = s.queue ∨
    ∃ nj : JOB, nj.level = 0 ∧ nj.redirection_level = 0 ∧
      (add_url cfg s p? iri? r sm).queue = s.queue ++ [job_updates nj p? r sm] := by
  rcases iri? with _ | iri
  · left
    have he : add_url cfg s p? none r sm = s := by
      unfold add_url
      split <;> rfl
    rw [he]
  by_cases h1 : (r && (cfg.max_redirect != 0) && redir_over cfg p?) = true
  · left
    have he : add_url cfg s p? (some iri) r sm = s := by
      unfold add_url
      rw [if_pos h1]
    rw [he]
  rw [Bool.not_eq_true] at h1
  by_cases h2 : (cfg.https_only && !(iri.scheme == Scheme.https)) = true
  · left
    rw [show add_url cfg s p? (some iri) r sm = s from by simp [add_url, h1, h2]]
  rw [Bool.not_eq_true] at h2
  by_cases h3 : (cfg.recursive && !cfg.parent && !parent_match s iri) = true
  · left
    rw [show add_url cfg s p? (some iri) r sm = s from by simp [add_url, h1, h2, h3]]
  rw [Bool.not_eq_true] at h3
  by_cases h4 : (cfg.recursive && !cfg.span_hosts && span_reject s iri) = true
  · left
    rw [show add_url cfg s p? (some iri) r sm = s from by simp [add_url, h1, h2, h3, h4]]
  rw [Bool.not_eq_true] at h4
  have hmain : add_url cfg s p? (some iri) r sm =
      (match au_robots cfg s iri with
        | RobotsStep.early s' => s'
        | RobotsStep.go s' rjob? => au_finish s' iri p? r sm rjob?) := by
    simp [add_url, h1, h2, h3, h4]
  rw [hmain]
  rcases au_robots_raw cfg s iri with hR | hR | ⟨s', hR, hq⟩
  · rw [hR]
    show (au_finish s iri p? r sm none).queue = s.queue ∨
      ∃ nj : JOB, nj.level = 0 ∧ nj.redirection_level = 0 ∧
        (au_finish s iri p? r sm none).queue = s.queue ++ [job_updates nj p? r sm]
    by_cases hb : iri ∈ s.blacklist
    · left
      simp [au_finish, hb]
    · right
      refine ⟨{ iri := iri }, rfl, rfl, ?_⟩
      simp only [au_finish]
      rw [if_neg hb]
  · rw [hR]
    right
    exact ⟨{ iri := robots_iri iri, robots := true }, rfl, rfl, by rfl⟩
  · rw [hR]
    left
    exact hq

/-- Claim C5, confirmed.  A seed job is enqueued with level 0 and
redirection_level 0; a job enqueued by `add_url` without the redirection
flag from a parent job has level = parent.level + 1; one enqueued with the
redirection flag has redirection_level = parent.redirection_level + 1 while
its level is not derived from the parent - the branch at mget.c lines
528-530 leaves the fresh job's level at its initial 0; and a redirection
candidate whose parent already has redirection_level >= max_redirect (with
max_redirect configured, line 416) is rejected with no state change. -/
theorem spec_c5 (cfg : MgetConfig) (s : AdmissionState) (j : JOB) (iri : IRI) (sm : Bool) :
    (∀ iri?, ∀ nj ∈ (add_url_to_queue cfg s iri?).queue,
      nj ∈ s.queue ∨ (nj.level = 0 ∧ nj.redirection_level = 0)) ∧
    (∀ nj ∈ (add_url cfg s (some j) (some iri) false sm).queue,
      nj ∈ s.queue ∨ (nj.level = j.level + 1 ∧ nj.redirection_level = 0)) ∧
    (∀ nj ∈ (add_url cfg s (some j) (some iri) true sm).queue,
      nj ∈ s.queue ∨ (nj.redirection_level = j.redirection_level + 1 ∧ nj.level = 0)) ∧
    (cfg.max_redirect ≠ 0 → cfg.max_redirect ≤ j.redirection_level →
      add_url cfg s (some j) (some iri) true sm = s) := by
  refine ⟨?_, ?_, ?_, ?_⟩
  · intro iri? nj hnjmem
    rcases add_url_to_queue_queue cfg s iri? with hq | ⟨nj0, hl, hr, hq⟩
    · left
      rw [hq] at hnjmem
      exact hnjmem
    · rw [hq] at hnjmem
      rcases List.mem_append.mp hnjmem with hm | hm
      · left
        exact hm
      · right
        simp only [List.mem_singleton] at hm
        subst hm
        exact ⟨hl, hr⟩
  · intro nj hnjmem
    rcases add_url_queue cfg s (some j) (some iri) false sm with hq | ⟨nj0, hl, hr, hq⟩
    · left
      rw [hq] at hnjmem
      exact hnjmem
    · rw [hq] at hnjmem
      rcases List.mem_append.mp hnjmem with hm | hm
      · left
        exact hm
      · right
        simp only [List.mem_singleton] at hm
        subst hm
        cases sm <;> simp [job_updates, hr]
  · intro nj hnjmem
    rcases add_url_queue cfg s (some j) (some iri) true sm with hq | ⟨nj0, hl, hr, hq⟩
    · left
      rw [hq] at hnjmem
      exact hnjmem
    · rw [hq] at hnjmem
      rcases List.mem_append.mp hnjmem with hm | hm
      · left
        exact hm
      · right
        simp only [List.mem_singleton] at hm
        subst hm
        cases sm <;> simp [job_updates, hl]
  · intro hmr hrl
    have hc : (true && (cfg.max_redirect != 0) && redir_over cfg (some j)) = true := by
      simp [redir_over, Bool.and_eq_true, bne_iff_ne, decide_eq_true_eq]
      exact ⟨hmr, hrl⟩
    unfold add_url
    rw [if_pos hc]

theorem spec_c5_witness :
    add_url ⟨false, false, false, true, false, 5⟩ {}
      (some { iri := ⟨Scheme.http, "h", 80, "/a"⟩, redirection_level := 5 })
      (some ⟨Scheme.http, "h", 80, "/b"⟩) true false = {} :=
  (spec_c5 ⟨false, false, false, true, false, 5⟩ {}
    { iri := ⟨Scheme.http, "h", 80, "/a"⟩, redirection_level := 5 }
    ⟨Scheme.http, "h", 80, "/b"⟩ false).2.2.2 (by decide) (by decide)

end Mget
